import Mathlib

/-!
Verification development for the BLUR redaction engine.

The Python sources of `blur_app/core` are shallowly embedded below:
text is `List Char`, bytes are `List Nat` (each < 256), Python dicts that
preserve insertion order are association lists, and the mutable
`RuleMatchReport` threaded through the matchers becomes explicit state
passing.  Python `re` literal and alternation matching, and `str.replace`,
are modelled by an explicit leftmost non-overlapping scan (`scanGo`,
`subGo`); regex pattern payloads are carried as a small AST (`RegexP`)
covering literal characters, the `\d` class, concatenation and
alternation, with `re.IGNORECASE` modelled by ASCII lowercasing.
-/

namespace BLUR

/-- Text, as Python `str` restricted to a sequence of characters. -/
abbrev Str := List Char

/-- Raw bytes, as Python `bytes`: a list of naturals, each < 256. -/
abbrev Bytes := List Nat

/-- Character comparison used by matching: exact, or ASCII-lowercased when
`re.IGNORECASE` is in effect. -/
def charEqB (ci : Bool) (a b : Char) : Bool :=
  if ci then a.toLower == b.toLower else a == b

/-- `ciPrefixOf ci k t` holds when the literal `k` matches at the start of
`t` under the given case sensitivity (the anchored test a compiled
`re.escape`d literal performs at one position). -/
def ciPrefixOf (ci : Bool) : Str → Str → Bool
  | [], _ => true
  | _ :: _, [] => false
  | k :: ks, c :: cs => charEqB ci k c && ciPrefixOf ci ks cs

/-- Anchored matcher for one escaped literal, as compiled in
`_apply_dictionary` (`re.compile(re.escape(target))`). -/
def litM (ci : Bool) (k : Str) : Str → Option Nat := fun t =>
  if ciPrefixOf ci k t then some k.length else none

/-- Anchored matcher for `"|".join(escaped)` as built in `_apply_keywords`:
Python alternation tries the alternatives left to right at one position
and commits to the first that matches. -/
def kwM (ci : Bool) : List Str → Str → Option Nat
  | [], _ => none
  | k :: ks, t => if ciPrefixOf ci k t then some k.length else kwM ci ks t

/-- Regex pattern AST carried by `patterns` payloads.  Playbooks store
pattern source strings and the engine runs `re.compile` on them; the
embedding carries the compiled form directly (an absent or empty pattern
string is `Option.none` at the payload level).  Counted repetitions such
as `\d{3}` are carried expanded into concatenations. -/
inductive RegexP where
  | rempty : RegexP
  | rchar : Char → RegexP
  | rdigit : RegexP
  | rseq : RegexP → RegexP → RegexP
  | ralt : RegexP → RegexP → RegexP
deriving DecidableEq

/-- All ways a regex can match at the start of `t`, lengths listed in the
backtracking engine's preference order (greedy, first alternative first). -/
def matchLens (ci : Bool) : RegexP → Str → List Nat
  | .rempty, _ => [0]
  | .rchar _, [] => []
  | .rchar c, x :: _ => if charEqB ci c x then [1] else []
  | .rdigit, [] => []
  | .rdigit, x :: _ => if x.isDigit then [1] else []
  | .rseq a b, s =>
      (matchLens ci a s).flatMap (fun la =>
        (matchLens ci b (s.drop la)).map (fun lb => la + lb))
  | .ralt a b, s => matchLens ci a s ++ matchLens ci b s

/-- Anchored matcher for a compiled regex: the first match the
backtracking engine finds at this position. -/
def rgxM (ci : Bool) (r : RegexP) : Str → Option Nat := fun t =>
  (matchLens ci r t).head?

/-- The scan loop shared by `finditer`: walk the text position by
position, report each leftmost non-overlapping match as (position,
length), resume after a match, and advance one character after a
zero-width match.  `skip` counts characters still covered by the last
reported match. -/
def scanGo (m : Str → Option Nat) : Str → Nat → Nat → List (Nat × Nat)
  | [], pos, 0 => match m [] with
      | some l => [(pos, l)]
      | none => []
  | [], _, _ + 1 => []
  | _ :: rest, pos, skip + 1 => scanGo m rest (pos + 1) skip
  | c :: rest, pos, 0 => match m (c :: rest) with
      | none => scanGo m rest (pos + 1) 0
      | some 0 => (pos, 0) :: scanGo m rest (pos + 1) 0
      | some (l + 1) => (pos, l + 1) :: scanGo m rest (pos + 1) l

/-- All matches of `m` in `s`, as `re.finditer` lists them. -/
def findAll (m : Str → Option Nat) (s : Str) : List (Nat × Nat) :=
  scanGo m s 0 0

/-- The substitution loop of `re.sub` (and, with a literal matcher, of
`str.replace`): copy unmatched characters, replace every leftmost
non-overlapping match by `rep` applied to the matched text. -/
def subGo (m : Str → Option Nat) (rep : Str → Str) : Str → Nat → Str
  | [], 0 => match m [] with
      | some _ => rep []
      | none => []
  | [], _ + 1 => []
  | _ :: rest, skip + 1 => subGo m rep rest skip
  | c :: rest, 0 => match m (c :: rest) with
      | none => c :: subGo m rep rest 0
      | some 0 => rep [] ++ c :: subGo m rep rest 0
      | some (l + 1) => rep ((c :: rest).take (l + 1)) ++ subGo m rep rest l

/-- `re.sub` with a replacement callback that threads extra state, as the
closure over `counter`/`placeholders` does in `_apply_allowlist`. -/
def subAccGo {α : Type} (m : Str → Option Nat) (rep : Str → α → Str × α) :
    Str → Nat → α → Str × α
  | [], 0, a => match m [] with
      | some _ => rep [] a
      | none => ([], a)
  | [], _ + 1, a => ([], a)
  | _ :: rest, skip + 1, a => subAccGo m rep rest skip a
  | c :: rest, 0, a => match m (c :: rest) with
      | none =>
          let (o, a') := subAccGo m rep rest 0 a
          (c :: o, a')
      | some 0 =>
          let (r, a') := rep [] a
          let (o, a'') := subAccGo m rep rest 0 a'
          (r ++ c :: o, a'')
      | some (l + 1) =>
          let (r, a') := rep ((c :: rest).take (l + 1)) a
          let (o, a'') := subAccGo m rep rest l a'
          (r ++ o, a'')

/-- Python `protected.replace(old, new)`: global literal replacement,
case sensitive, leftmost non-overlapping. -/
def pythonReplace (old new s : Str) : Str :=
  subGo (litM false old) (fun _ => new) s 0

/-- Decimal digits of `n`, most significant first, as `str(n)` renders
them; the first argument is structural fuel, always sufficient at
`natStr`. -/
def natDigits : Nat → Nat → Str
  | 0, _ => []
  | f + 1, n =>
      if n < 10 then [Char.ofNat (48 + n)]
      else natDigits f (n / 10) ++ [Char.ofNat (48 + n % 10)]

/-- `str(n)` for a natural counter value. -/
def natStr (n : Nat) : Str := natDigits (n + 1) n

/-- `PLACEHOLDER_PREFIX` from `rules.py`. -/
def placeholderStem : Str := "__BLUR_ALLOWLIST_".toList

/-- The placeholder token `f"{PLACEHOLDER_PREFIX}{counter}__"`. -/
def phToken (n : Nat) : Str := placeholderStem ++ natStr n ++ "__".toList

/-- One `{pattern, case_insensitive}` entry of a `patterns` payload
(`pattern_entry.get("pattern")` / `pattern_entry.get("case_insensitive")`).
`pattern = none` stands for an absent or empty pattern string, which the
engine skips (`if not pattern: continue`). -/
structure PatternEntry where
  pattern : Option RegexP
  case_insensitive : Bool
deriving DecidableEq

/-- `Rule` from `playbooks.py`, with the loader's defaults. -/
structure Rule where
  rule_id : Str
  name : Str
  rule_type : Str
  enabled : Bool := true
  priority : Int := 100
  action : Str := "MASK".toList
  replacement_template : Option Str := none
  scope : List Str := []
  patterns : List PatternEntry := []
  phrases : List Str := []
  dictionary : List (Str × Str) := []
  keywords : List Str := []
  case_insensitive : Bool := false
deriving DecidableEq

/-- `Playbook` from `playbooks.py`, with the loader's defaults. -/
structure Playbook where
  name : Str
  version : Str
  redaction_mode : Str := "FIXED_TOKEN".toList
  mask_char : Str := "*".toList
  rules : List Rule := []
deriving DecidableEq

/-- `RuleMatchReport`; the two Python dicts become insertion-ordered
association lists. -/
structure RuleMatchReport where
  total_matches : Nat := 0
  matches_by_rule_type : List (Str × Nat) := []
  matches_by_rule_id : List (Str × Nat) := []
deriving DecidableEq

/-- `mapping.get(key, 0)` on an insertion-ordered dict. -/
def getD (m : List (Str × Nat)) (k : Str) : Nat :=
  match m with
  | [] => 0
  | (k', v) :: rest => if k' = k then v else getD rest k

/-- `mapping[key] = v` on an insertion-ordered dict: update in place if
the key exists, else append. -/
def setK (m : List (Str × Nat)) (k : Str) (v : Nat) : List (Str × Nat) :=
  match m with
  | [] => [(k, v)]
  | (k', v') :: rest =>
      if k' = k then (k, v) :: rest else (k', v') :: setK rest k v

/-- `_register_match`. -/
def registerMatch (report : RuleMatchReport) (rule : Rule) (count : Nat) :
    RuleMatchReport :=
  if count = 0 then report
  else
    { total_matches := report.total_matches + count
      matches_by_rule_type :=
        setK report.matches_by_rule_type rule.rule_type
          (getD report.matches_by_rule_type rule.rule_type + count)
      matches_by_rule_id :=
        setK report.matches_by_rule_id rule.rule_id
          (getD report.matches_by_rule_id rule.rule_id + count) }

/-- `_merge_reports` from `processor_docx.py`. -/
def mergeReports (target report : RuleMatchReport) : RuleMatchReport :=
  { total_matches := target.total_matches + report.total_matches
    matches_by_rule_type :=
      report.matches_by_rule_type.foldl
        (fun m kv => setK m kv.1 (getD m kv.1 + kv.2))
        target.matches_by_rule_type
    matches_by_rule_id :=
      report.matches_by_rule_id.foldl
        (fun m kv => setK m kv.1 (getD m kv.1 + kv.2))
        target.matches_by_rule_id }

/-- Stable insertion of a rule after all rules of priority ≤ its own. -/
def insertByPriority (r : Rule) : List Rule → List Rule
  | [] => [r]
  | x :: xs =>
      if x.priority ≤ r.priority then x :: insertByPriority r xs
      else r :: x :: xs

/-- `sorted(rules, key=lambda rule: rule.priority)`: Python's sort is
stable, and a stable sort by one key is the unique reordering produced by
left-to-right stable insertion. -/
def sortByPriority (rules : List Rule) : List Rule :=
  rules.foldl (fun acc r => insertByPriority r acc) []

/-- `_rules_by_type`. -/
def rulesByType (pb : Playbook) (t : Str) : List Rule :=
  sortByPriority (pb.rules.filter (fun r => r.rule_type = t && r.enabled))

/-- `template.format(rule_name=..., rule_id=...)` for the two fields the
templates accept; each field occurrence in the template is replaced by
its value in a single pass over the template (Python's handling of
malformed or unknown fields, which raises, is not modelled). -/
def formatT (name rid : Str) (t : Str) : Str :=
  subGo (kwM false ["{rule_name}".toList, "{rule_id}".toList])
    (fun mt => if mt = "{rule_name}".toList then name else rid) t 0

/-- `playbook.mask_char or "*"`. -/
def maskCharOf (pb : Playbook) : Str :=
  if pb.mask_char = [] then "*".toList else pb.mask_char

/-- `rule.replacement_template or default` (`None` and the empty string
are both falsy). -/
def templateOr (dflt : Str) : Option Str → Str
  | none => dflt
  | some t => if t = [] then dflt else t

/-- `_replacement_for_match`. -/
def replacementForMatch (matchText : Str) (rule : Rule) (pb : Playbook) :
    Str :=
  if rule.action = "REMOVE".toList then []
  else if rule.action = "REPLACE".toList then
    formatT rule.name rule.rule_id
      (templateOr "[BLURRED:{rule_name}]".toList rule.replacement_template)
  else if pb.redaction_mode = "SAME_LENGTH_MASK".toList then
    (List.replicate matchText.length (maskCharOf pb)).flatten
  else templateOr "[BLURRED]".toList rule.replacement_template

/-- The per-entry loop body of `_apply_dictionary`.  Note that for
`REPLACE` the raw per-key mapped value is substituted
(`pattern.sub(replacement, updated)`; backslash escapes in replacement
strings, which Python's `re.sub` would expand, are not modelled). -/
def applyDictGo (rule : Rule) (pb : Playbook) (dryRun : Bool) :
    List (Str × Str) → Str → RuleMatchReport → Str × RuleMatchReport
  | [], s, report => (s, report)
  | (target, repl) :: rest, s, report =>
      let m := litM rule.case_insensitive target
      let ms := findAll m s
      if ms = [] then applyDictGo rule pb dryRun rest s report
      else
        let report' := registerMatch report rule ms.length
        if dryRun then applyDictGo rule pb dryRun rest s report'
        else
          let s' :=
            if rule.action = "REMOVE".toList then subGo m (fun _ => []) s 0
            else if rule.action = "REPLACE".toList then
              subGo m (fun _ => repl) s 0
            else subGo m (fun mt => replacementForMatch mt rule pb) s 0
          applyDictGo rule pb dryRun rest s' report'

/-- `_apply_dictionary`. -/
def applyDictionary (s : Str) (rule : Rule) (pb : Playbook)
    (report : RuleMatchReport) (dryRun : Bool) : Str × RuleMatchReport :=
  applyDictGo rule pb dryRun rule.dictionary s report

/-- The per-entry loop body of `_apply_regex_patterns`. -/
def applyRegexGo (rule : Rule) (pb : Playbook) (dryRun : Bool) :
    List PatternEntry → Str → RuleMatchReport → Str × RuleMatchReport
  | [], s, report => (s, report)
  | entry :: rest, s, report =>
      match entry.pattern with
      | none => applyRegexGo rule pb dryRun rest s report
      | some rgx =>
          let m := rgxM (rule.case_insensitive || entry.case_insensitive) rgx
          let ms := findAll m s
          if ms = [] then applyRegexGo rule pb dryRun rest s report
          else
            let report' := registerMatch report rule ms.length
            if dryRun then applyRegexGo rule pb dryRun rest s report'
            else
              let s' := subGo m (fun mt => replacementForMatch mt rule pb) s 0
              applyRegexGo rule pb dryRun rest s' report'

/-- `_apply_regex_patterns`. -/
def applyRegexPatterns (s : Str) (rule : Rule) (pb : Playbook)
    (report : RuleMatchReport) (dryRun : Bool) : Str × RuleMatchReport :=
  applyRegexGo rule pb dryRun rule.patterns s report

/-- `_apply_keywords`. -/
def applyKeywords (s : Str) (rule : Rule) (pb : Playbook)
    (report : RuleMatchReport) (dryRun : Bool) : Str × RuleMatchReport :=
  if rule.keywords = [] then (s, report)
  else
    let m := kwM rule.case_insensitive rule.keywords
    let ms := findAll m s
    if ms = [] then (s, report)
    else
      let report' := registerMatch report rule ms.length
      if dryRun then (s, report')
      else (subGo m (fun mt => replacementForMatch mt rule pb) s 0, report')

/-- `_apply_rule`. -/
def applyRule (s : Str) (rule : Rule) (pb : Playbook)
    (report : RuleMatchReport) (dryRun : Bool) : Str × RuleMatchReport :=
  if rule.rule_type = "dictionary_entities".toList then
    applyDictionary s rule pb report dryRun
  else if rule.rule_type = "regex_patterns".toList then
    applyRegexPatterns s rule pb report dryRun
  else if rule.rule_type = "keyword_list".toList then
    applyKeywords s rule pb report dryRun
  else (s, report)

/-- State of `_apply_allowlist`: working text, placeholder counter, and
the insertion-ordered placeholder dict. -/
abbrev AllowSt := Str × Nat × List (Str × Str)

/-- The phrase loop of `_apply_allowlist`: the counter advances and a
placeholder mapping is recorded for every phrase, whether or not the
phrase occurs in the text. -/
def allowPhrases : List Str → AllowSt → AllowSt
  | [], st => st
  | p :: ps, (t, c, l) =>
      let tok := phToken (c + 1)
      allowPhrases ps (pythonReplace p tok t, c + 1, l ++ [(tok, p)])

/-- The pattern loop of `_apply_allowlist`: every regex match gets a
fresh placeholder recording the exact matched text. -/
def allowPatterns (ci : Bool) : List PatternEntry → AllowSt → AllowSt
  | [], st => st
  | e :: es, (t, c, l) =>
      match e.pattern with
      | none => allowPatterns ci es (t, c, l)
      | some rgx =>
          let (t', st') :=
            subAccGo (rgxM (ci || e.case_insensitive) rgx)
              (fun mt (st : Nat × List (Str × Str)) =>
                let c' := st.1 + 1
                (phToken c', (c', st.2 ++ [(phToken c', mt)])))
              t 0 (c, l)
          allowPatterns ci es (t', st'.1, st'.2)

/-- `_apply_allowlist`, over the enabled allowlist rules in priority
order. -/
def applyAllowlist : List Rule → AllowSt → AllowSt
  | [], st => st
  | r :: rs, st =>
      applyAllowlist rs (allowPatterns r.case_insensitive r.patterns
        (allowPhrases r.phrases st))

/-- The restoration loop at the end of `apply_rules`: placeholders are
replaced back in insertion order. -/
def restorePlaceholders (phs : List (Str × Str)) (s : Str) : Str :=
  phs.foldl (fun acc kv => pythonReplace kv.1 kv.2 acc) s

/-- `apply_rules`. -/
def applyRules (text : Str) (pb : Playbook) (dryRun : Bool) :
    Str × RuleMatchReport :=
  let (protectedText, _, placeholders) :=
    applyAllowlist (rulesByType pb "allowlist".toList) (text, 0, [])
  let step := fun (st : Str × RuleMatchReport) (r : Rule) =>
    applyRule st.1 r pb st.2 dryRun
  let st1 := (rulesByType pb "dictionary_entities".toList).foldl step
    (protectedText, {})
  let st2 := (rulesByType pb "regex_patterns".toList).foldl step st1
  let st3 := (rulesByType pb "keyword_list".toList).foldl step st2
  (restorePlaceholders placeholders st3.1, st3.2)

/-! ### `utils.py` -/

/-- Membership in the character class `[A-Za-z0-9._-]` of
`SAFE_FILENAME_PATTERN`. -/
def isSafeChar (c : Char) : Bool :=
  ('A' ≤ c && c ≤ 'Z') || ('a' ≤ c && c ≤ 'z') || ('0' ≤ c && c ≤ '9') ||
    c == '.' || c == '_' || c == '-'

/-- ASCII whitespace stripped by `str.strip()` (further Unicode
whitespace stripped by Python is not modelled). -/
def isStripWs (c : Char) : Bool :=
  c == ' ' || c == '\t' || c == '\n' || c == '\r' ||
    c == Char.ofNat 11 || c == Char.ofNat 12

/-- `name.strip()`. -/
def pyStrip (s : Str) : Str :=
  (((s.dropWhile isStripWs).reverse.dropWhile isStripWs).reverse)

/-- `SAFE_FILENAME_PATTERN.sub("_", s)` for the pattern
`[^A-Za-z0-9._-]+`: each maximal run of disallowed characters becomes a
single underscore.  The flag records whether a run is already open. -/
def squashRuns : Str → Bool → Str
  | [], _ => []
  | c :: rest, inRun =>
      if isSafeChar c then c :: squashRuns rest false
      else if inRun then squashRuns rest true
      else '_' :: squashRuns rest true

/-- `sanitize_filename` with the default `max_length=255`. -/
def sanitizeFilename (name : Str) : Str :=
  let sanitized := squashRuns (pyStrip name) false
  (if sanitized = [] then "file".toList else sanitized).take 255

/-- Continuation byte test `0x80 <= b <= 0xBF`. -/
def isContB (b : Nat) : Bool := 0x80 ≤ b && b ≤ 0xBF

/-- Strict UTF-8 decoding as `bytes.decode("utf-8")` performs it:
RFC 3629 sequences only, rejecting overlong forms, surrogates and
code points above U+10FFFF. -/
def utf8Go : Bytes → Option Str
  | [] => some []
  | b :: rest =>
      if b < 0x80 then (utf8Go rest).map (fun cs => Char.ofNat b :: cs)
      else if 0xC2 ≤ b && b ≤ 0xDF then
        match rest with
        | b2 :: rest2 =>
            if isContB b2 then
              (utf8Go rest2).map
                (fun cs => Char.ofNat ((b - 0xC0) * 64 + (b2 - 0x80)) :: cs)
            else none
        | [] => none
      else if 0xE0 ≤ b && b ≤ 0xEF then
        match rest with
        | b2 :: b3 :: rest2 =>
            let sndOk :=
              if b = 0xE0 then 0xA0 ≤ b2 && b2 ≤ 0xBF
              else if b = 0xED then 0x80 ≤ b2 && b2 ≤ 0x9F
              else isContB b2
            if sndOk && isContB b3 then
              (utf8Go rest2).map (fun cs =>
                Char.ofNat
                  ((b - 0xE0) * 4096 + (b2 - 0x80) * 64 + (b3 - 0x80)) :: cs)
            else none
        | _ => none
      else if 0xF0 ≤ b && b ≤ 0xF4 then
        match rest with
        | b2 :: b3 :: b4 :: rest2 =>
            let sndOk :=
              if b = 0xF0 then 0x90 ≤ b2 && b2 ≤ 0xBF
              else if b = 0xF4 then 0x80 ≤ b2 && b2 ≤ 0x8F
              else isContB b2
            if sndOk && isContB b3 && isContB b4 then
              (utf8Go rest2).map (fun cs =>
                Char.ofNat
                  ((b - 0xF0) * 262144 + (b2 - 0x80) * 4096 +
                    (b3 - 0x80) * 64 + (b4 - 0x80)) :: cs)
            else none
        | _ => none
      else none

/-- The cp1251 mapping for bytes `0x80`–`0xBF`; `0x98` is the single
byte the codec leaves undefined. -/
def cp1251High (b : Nat) : Option Nat :=
  match b with
  | 0x80 => some 0x402 | 0x81 => some 0x403 | 0x82 => some 0x201A
  | 0x83 => some 0x453 | 0x84 => some 0x201E | 0x85 => some 0x2026
  | 0x86 => some 0x2020 | 0x87 => some 0x2021 | 0x88 => some 0x20AC
  | 0x89 => some 0x2030 | 0x8A => some 0x409 | 0x8B => some 0x2039
  | 0x8C => some 0x40A | 0x8D => some 0x40C | 0x8E => some 0x40B
  | 0x8F => some 0x40F | 0x90 => some 0x452 | 0x91 => some 0x2018
  | 0x92 => some 0x2019 | 0x93 => some 0x201C | 0x94 => some 0x201D
  | 0x95 => some 0x2022 | 0x96 => some 0x2013 | 0x97 => some 0x2014
  | 0x98 => none | 0x99 => some 0x2122 | 0x9A => some 0x459
  | 0x9B => some 0x203A | 0x9C => some 0x45A | 0x9D => some 0x45C
  | 0x9E => some 0x45B | 0x9F => some 0x45F | 0xA0 => some 0xA0
  | 0xA1 => some 0x40E | 0xA2 => some 0x45E | 0xA3 => some 0x408
  | 0xA4 => some 0xA4 | 0xA5 => some 0x490 | 0xA6 => some 0xA6
  | 0xA7 => some 0xA7 | 0xA8 => some 0x401 | 0xA9 => some 0xA9
  | 0xAA => some 0x404 | 0xAB => some 0xAB | 0xAC => some 0xAC
  | 0xAD => some 0xAD | 0xAE => some 0xAE | 0xAF => some 0x407
  | 0xB0 => some 0xB0 | 0xB1 => some 0xB1 | 0xB2 => some 0x406
  | 0xB3 => some 0x456 | 0xB4 => some 0x491 | 0xB5 => some 0xB5
  | 0xB6 => some 0xB6 | 0xB7 => some 0xB7 | 0xB8 => some 0x451
  | 0xB9 => some 0x2116 | 0xBA => some 0x454 | 0xBB => some 0xBB
  | 0xBC => some 0x458 | 0xBD => some 0x405 | 0xBE => some 0x455
  | 0xBF => some 0x457
  | _ => none

/-- One byte of `bytes.decode("cp1251")`. -/
def cp1251Char (b : Nat) : Option Char :=
  if b < 0x80 then some (Char.ofNat b)
  else if 0xC0 ≤ b && b ≤ 0xDF then some (Char.ofNat (0x410 + (b - 0xC0)))
  else if 0xE0 ≤ b && b ≤ 0xFF then some (Char.ofNat (0x430 + (b - 0xE0)))
  else (cp1251High b).map Char.ofNat

/-- `bytes.decode("cp1251")`. -/
def cp1251Go : Bytes → Option Str
  | [] => some []
  | b :: rest =>
      match cp1251Char b with
      | none => none
      | some c => (cp1251Go rest).map (fun cs => c :: cs)

/-- One byte of `bytes.decode("latin-1")`: latin-1 maps every byte value
0–255 directly to the code point of the same value. -/
def latin1Char (b : Nat) : Option Char :=
  if b ≤ 0xFF then some (Char.ofNat b) else none

/-- `bytes.decode("latin-1")` (strict). -/
def latin1Go : Bytes → Option Str
  | [] => some []
  | b :: rest =>
      match latin1Char b with
      | none => none
      | some c => (latin1Go rest).map (fun cs => c :: cs)

/-- `bytes.decode("latin-1", errors="replace")`: undecodable positions
become U+FFFD (none exist for byte values 0–255). -/
def latin1Replace (data : Bytes) : Str :=
  data.map (fun b => if b ≤ 0xFF then Char.ofNat b else Char.ofNat 0xFFFD)

/-- The strict fallback chain of `decode_text_bytes`: utf-8, then
cp1251, then latin-1. -/
def decodeStrictChain (data : Bytes) : Option Str :=
  match utf8Go data with
  | some s => some s
  | none =>
      match cp1251Go data with
      | some s => some s
      | none => latin1Go data

/-- `decode_text_bytes`: the strict chain, then the `errors="replace"`
last resort. -/
def decodeTextBytes (data : Bytes) : Str :=
  match decodeStrictChain data with
  | some s => s
  | none => latin1Replace data

/-! ### `cleaner_docx.py` and `processor_docx.py`

lxml's element model: every element has a tag (abbreviated here to its
prefixed form, e.g. `w:del` for the namespace-expanded name), attributes,
optional leading text, child elements each carrying optional tail text.
`parent.remove(node)` discards the node, its subtree and its tail;
`_unwrap` splices the children (with their tails) in place of the
wrapper, discarding the wrapper's text and tail.  Parsing and
serialisation (`etree.fromstring` / `etree.tostring`) are external
library calls, taken as parameters `parse` and `render`. -/

mutual
inductive Xml where
  | elem (tag : Str) (attrs : List (Str × Str)) (text : Option Str)
      (kids : XmlList) (tail : Option Str)
inductive XmlList where
  | nil
  | cons (head : Xml) (tail : XmlList)
end

/-- The tag of an element. -/
def Xml.tag : Xml → Str
  | .elem t _ _ _ _ => t

/-- The child list of an element. -/
def Xml.kids : Xml → XmlList
  | .elem _ _ _ ks _ => ks

/-- Concatenation of child lists. -/
def XmlList.app : XmlList → XmlList → XmlList
  | .nil, ys => ys
  | .cons c cs, ys => .cons c (XmlList.app cs ys)

/-- Tags whose nodes `_accept_revisions` removes with their subtrees. -/
def isDelTag (t : Str) : Bool :=
  t == "w:del".toList || t == "w:moveFrom".toList

/-- Tags whose nodes `_accept_revisions` unwraps. -/
def isInsTag (t : Str) : Bool :=
  t == "w:ins".toList || t == "w:moveTo".toList

/-- Comment anchor tags removed by `_remove_comments`. -/
def isCommentTag (t : Str) : Bool :=
  t == "w:commentRangeStart".toList || t == "w:commentRangeEnd".toList ||
    t == "w:commentReference".toList

mutual
/-- First pass of `_accept_revisions` below a node: every descendant
`w:del`/`w:moveFrom` is removed together with its entire subtree (the
node itself, as xpath context of `.//`, is kept). -/
def stripRevNode : Xml → Xml
  | .elem t a tx ks tl => .elem t a tx (stripRevKids ks) tl
/-- First pass of `_accept_revisions` over a child list. -/
def stripRevKids : XmlList → XmlList
  | .nil => .nil
  | .cons c cs =>
      if isDelTag c.tag then stripRevKids cs
      else .cons (stripRevNode c) (stripRevKids cs)
end

mutual
/-- Second pass of `_accept_revisions` below a node: every descendant
`w:ins`/`w:moveTo` wrapper is replaced by its (recursively processed)
children, spliced in place in order. -/
def unwrapNode : Xml → Xml
  | .elem t a tx ks tl => .elem t a tx (unwrapKids ks) tl
/-- Second pass of `_accept_revisions` over a child list. -/
def unwrapKids : XmlList → XmlList
  | .nil => .nil
  | .cons c cs =>
      if isInsTag c.tag then XmlList.app (unwrapNode c).kids (unwrapKids cs)
      else .cons (unwrapNode c) (unwrapKids cs)
end

/-- `_accept_revisions`. -/
def acceptRevisions (x : Xml) : Xml := unwrapNode (stripRevNode x)

mutual
/-- Size of an element (for induction over the mutual tree). -/
def xsizeN : Xml → Nat
  | .elem _ _ _ ks _ => 1 + xsizeL ks
/-- Size of a child list. -/
def xsizeL : XmlList → Nat
  | .nil => 0
  | .cons c cs => 1 + xsizeN c + xsizeL cs
end

mutual
/-- Does the node, or any of its descendants, carry a tag satisfying
`p`? -/
def hasTagNode (p : Str → Bool) : Xml → Bool
  | .elem t _ _ ks _ => p t || hasTagKids p ks
/-- Does any node of these subtrees carry a tag satisfying `p`? -/
def hasTagKids (p : Str → Bool) : XmlList → Bool
  | .nil => false
  | .cons c cs => hasTagNode p c || hasTagKids p cs
end

mutual
/-- `_remove_comments` below a node. -/
def removeCommentsNode : Xml → Xml
  | .elem t a tx ks tl => .elem t a tx (removeCommentsKids ks) tl
/-- `_remove_comments` over a child list. -/
def removeCommentsKids : XmlList → XmlList
  | .nil => .nil
  | .cons c cs =>
      if isCommentTag c.tag then removeCommentsKids cs
      else .cons (removeCommentsNode c) (removeCommentsKids cs)
end

mutual
/-- The `//*` loop of the property wipes: `if element.text:
element.text = ""` at every element including the root. -/
def blankTextNode : Xml → Xml
  | .elem t a tx ks tl =>
      .elem t a
        (match tx with
         | none => none
         | some s => if s = [] then some s else some [])
        (blankTextKids ks) tl
/-- The `//*` blanking over a child list. -/
def blankTextKids : XmlList → XmlList
  | .nil => .nil
  | .cons c cs => .cons (blankTextNode c) (blankTextKids cs)
end

/-- The author/timestamp fields `_wipe_core_properties` erases
explicitly. -/
def isCoreFieldTag (t : Str) : Bool :=
  t == "dc:creator".toList || t == "cp:lastModifiedBy".toList ||
    t == "dcterms:created".toList || t == "dcterms:modified".toList

mutual
/-- The explicit-field pass of `_wipe_core_properties`: `node.text = ""`
on every matching descendant, even when its text was `None`. -/
def coreFieldsNode : Xml → Xml
  | .elem t a tx ks tl =>
      .elem t a (if isCoreFieldTag t then some [] else tx)
        (coreFieldsKids ks) tl
/-- The explicit-field pass over a child list. -/
def coreFieldsKids : XmlList → XmlList
  | .nil => .nil
  | .cons c cs => .cons (coreFieldsNode c) (coreFieldsKids cs)
end

/-- `_wipe_core_properties` (the `.//tag` field queries skip the root). -/
def wipeCoreProps (x : Xml) : Xml :=
  match blankTextNode x with
  | .elem t a tx ks tl => .elem t a tx (coreFieldsKids ks) tl

/-- `_wipe_custom_properties`. -/
def wipeCustomProps (x : Xml) : Xml := blankTextNode x

/-- `_remove_comments_part`. -/
def removeCommentsPart (parts : List (Str × Bytes)) : List (Str × Bytes) :=
  parts.filter (fun p => !(p.1 == "word/comments.xml".toList))

/-- `clean_docx_parts`, parametric in the XML parser and serialiser. -/
def cleanDocxParts (parse : Bytes → Option Xml) (render : Xml → Bytes)
    (parts : List (Str × Bytes)) : List (Str × Bytes) :=
  removeCommentsPart (parts.map (fun nd =>
    if !(".xml".toList.isSuffixOf nd.1) then nd
    else
      match parse nd.2 with
      | none => nd
      | some tree =>
          let t1 :=
            if "word/".toList.isPrefixOf nd.1 then
              removeCommentsNode (acceptRevisions tree)
            else tree
          let t2 := if nd.1 = "docProps/core.xml".toList then wipeCoreProps t1
            else t1
          let t3 := if nd.1 = "docProps/custom.xml".toList then
              wipeCustomProps t2
            else t2
          (nd.1, render t3)))

mutual
/-- The `.//w:t` loop of `_apply_rules_to_parts` at one node: redact the
text of every `w:t` descendant-or-self, merging each node's report into
the aggregate; the modified flag records whether a live run changed any
text. -/
def walkNode (pb : Playbook) (dryRun : Bool) :
    Xml → RuleMatchReport → Bool → Xml × RuleMatchReport × Bool
  | .elem t a tx ks tl, acc, md =>
      let step :=
        if t = "w:t".toList then
          match tx with
          | none => (tx, acc, md)
          | some s =>
              let (rd, rep) := applyRules s pb dryRun
              let acc' := mergeReports acc rep
              if ¬dryRun ∧ rd ≠ s then (some rd, acc', true)
              else (tx, acc', md)
        else (tx, acc, md)
      let rec2 := walkKids pb dryRun ks step.2.1 step.2.2
      (.elem t a step.1 rec2.1 tl, rec2.2)
/-- The `.//w:t` loop over a child list. -/
def walkKids (pb : Playbook) (dryRun : Bool) :
    XmlList → RuleMatchReport → Bool → XmlList × RuleMatchReport × Bool
  | .nil, acc, md => (.nil, acc, md)
  | .cons c cs, acc, md =>
      let r1 := walkNode pb dryRun c acc md
      let r2 := walkKids pb dryRun cs r1.2.1 r1.2.2
      (.cons r1.1 r2.1, r2.2)
end

/-- The body of the per-part loop of `_apply_rules_to_parts`: parts
outside `word/*.xml`, and parts whose bytes fail to parse, are skipped;
otherwise the `w:t` descendants of the root are redacted and the part is
re-serialised only when modified.  (`.//w:t` selects descendants of the
root, not the root itself.) -/
def partStep (parse : Bytes → Option Xml) (render : Xml → Bytes)
    (pb : Playbook) (dryRun : Bool) (n : Str) (d : Bytes)
    (acc : RuleMatchReport) : Bytes × RuleMatchReport :=
  if !("word/".toList.isPrefixOf n && ".xml".toList.isSuffixOf n) then
    (d, acc)
  else
    match parse d with
    | none => (d, acc)
    | some (.elem t a tx ks tl) =>
        let r := walkKids pb dryRun ks acc false
        (if r.2.2 then render (.elem t a tx r.1 tl) else d, r.2.1)

/-- The part loop of `_apply_rules_to_parts`. -/
def applyPartsGo (parse : Bytes → Option Xml) (render : Xml → Bytes)
    (pb : Playbook) (dryRun : Bool) :
    List (Str × Bytes) → RuleMatchReport →
      List (Str × Bytes) × RuleMatchReport
  | [], acc => ([], acc)
  | (n, d) :: rest, acc =>
      let r1 := partStep parse render pb dryRun n d acc
      let r2 := applyPartsGo parse render pb dryRun rest r1.2
      ((n, r1.1) :: r2.1, r2.2)

/-- `_apply_rules_to_parts`. -/
def applyRulesToParts (parse : Bytes → Option Xml) (render : Xml → Bytes)
    (pb : Playbook) (dryRun : Bool) (parts : List (Str × Bytes)) :
    List (Str × Bytes) × RuleMatchReport :=
  applyPartsGo parse render pb dryRun parts {}

/-! ### Concrete playbooks used by the theorems and witnesses -/

/-- The compiled form of `\d{3}-\d{2}-\d{4}` (counted repetitions
expanded). -/
def ssnRegex : RegexP :=
  .rseq .rdigit (.rseq .rdigit (.rseq .rdigit (.rseq (.rchar '-')
    (.rseq .rdigit (.rseq .rdigit (.rseq (.rchar '-') (.rseq .rdigit
      (.rseq .rdigit (.rseq .rdigit .rdigit)))))))))

/-- The regex rule of spec Scenario A. -/
def ssnRule : Rule :=
  { rule_id := "ssn".toList, name := "SSN".toList,
    rule_type := "regex_patterns".toList, action := "MASK".toList,
    patterns := [{ pattern := some ssnRegex, case_insensitive := false }] }

/-- The playbook of spec Scenario A. -/
def pbScenarioA : Playbook :=
  { name := "a".toList, version := "1".toList,
    redaction_mode := "SAME_LENGTH_MASK".toList, mask_char := "*".toList,
    rules := [ssnRule] }

/-- Dictionary rule whose REPLACE value introduces text a later keyword
rule matches. -/
def chainDictRule : Rule :=
  { rule_id := "d".toList, name := "D".toList,
    rule_type := "dictionary_entities".toList, action := "REPLACE".toList,
    dictionary := [("a".toList, "b".toList)] }

/-- Keyword rule matching the text introduced by `chainDictRule`. -/
def chainKwRule : Rule :=
  { rule_id := "k".toList, name := "K".toList,
    rule_type := "keyword_list".toList, action := "REMOVE".toList,
    keywords := ["b".toList] }

/-- Playbook in which a live run's REPLACE feeds a later keyword rule. -/
def pbChain : Playbook :=
  { name := "x".toList, version := "1".toList,
    rules := [chainDictRule, chainKwRule] }

/-- Allowlist rule protecting the phrase `Acme`. -/
def acmeAllowRule : Rule :=
  { rule_id := "al".toList, name := "AL".toList,
    rule_type := "allowlist".toList, phrases := ["Acme".toList] }

/-- Keyword rule whose keyword `BLUR` matches inside the placeholder
token itself. -/
def blurKwRule : Rule :=
  { rule_id := "k".toList, name := "K".toList,
    rule_type := "keyword_list".toList, action := "REMOVE".toList,
    keywords := ["BLUR".toList] }

/-- Playbook whose keyword rule destroys the allowlist placeholder. -/
def pbPlaceholderAttack : Playbook :=
  { name := "x".toList, version := "1".toList,
    rules := [acmeAllowRule, blurKwRule] }

/-- Keyword rule whose keyword `zz` shares no character (even
case-insensitively) with placeholder tokens. -/
def zzKwRule : Rule :=
  { rule_id := "k".toList, name := "K".toList,
    rule_type := "keyword_list".toList, action := "REMOVE".toList,
    keywords := ["zz".toList] }

/-- Playbook whose later keyword rule cannot touch placeholder tokens. -/
def pbSurvive : Playbook :=
  { name := "x".toList, version := "1".toList,
    rules := [acmeAllowRule, zzKwRule] }

/-- Dictionary REPLACE rule that also carries a replacement template. -/
def dictTemplateRule : Rule :=
  { rule_id := "d".toList, name := "D".toList,
    rule_type := "dictionary_entities".toList, action := "REPLACE".toList,
    replacement_template := some "[T]".toList,
    dictionary := [("John".toList, "X".toList)] }

/-- Playbook with a dictionary REPLACE rule carrying a template. -/
def pbDictTemplate : Playbook :=
  { name := "x".toList, version := "1".toList, rules := [dictTemplateRule] }

/-- Allowlist rule with a phrase that occurs nowhere in the
counterexample text. -/
def quietAllowRule : Rule :=
  { rule_id := "al".toList, name := "AL".toList,
    rule_type := "allowlist".toList, phrases := ["Q".toList] }

/-- Playbook whose only rule matches nothing, yet whose restoration pass
rewrites placeholder-shaped input text. -/
def pbQuiet : Playbook :=
  { name := "x".toList, version := "1".toList, rules := [quietAllowRule] }

/-- A parser that rejects every byte string (any concrete instance of
"these bytes fail to parse as XML"). -/
def parseNoneFn : Bytes → Option Xml := fun _ => none

/-- A serialiser (never reached in the concrete cases below). -/
def renderNilFn : Xml → Bytes := fun _ => []

/-- A rule payload matches nowhere in `text` when every matcher the
engine would compile from it reports no match: used to state C5. -/
def ruleInert (r : Rule) (text : Str) : Prop :=
  (∀ p ∈ r.phrases, findAll (litM false p) text = []) ∧
  (∀ e ∈ r.patterns, ∀ rgx, e.pattern = some rgx →
      findAll (rgxM (r.case_insensitive || e.case_insensitive) rgx) text
        = []) ∧
  (∀ kv ∈ r.dictionary, findAll (litM r.case_insensitive kv.1) text = []) ∧
  (∀ k ∈ r.keywords, findAll (litM r.case_insensitive k) text = [])

/-- Sum of the counter values of a report map: used to state C9. -/
def sumVals : List (Str × Nat) → Nat
  | [] => 0
  | kv :: rest => kv.2 + sumVals rest

/-- The report invariant of C9: the total equals the sum of each map and
every stored counter is strictly positive. -/
abbrev validReport (rep : RuleMatchReport) : Prop :=
  sumVals rep.matches_by_rule_type = rep.total_matches ∧
  sumVals rep.matches_by_rule_id = rep.total_matches ∧
  (∀ kv ∈ rep.matches_by_rule_type, 0 < kv.2) ∧
  (∀ kv ∈ rep.matches_by_rule_id, 0 < kv.2)

/-- Lowercased forms of every character that can occur in a placeholder
token `__BLUR_ALLOWLIST_<n>__`. -/
def phAlphaLower : Str := "_bluralowist0123456789".toList

/-- A character that cannot collide with any placeholder-token character
under either case-sensitive or `IGNORECASE` literal matching. -/
abbrev charNotPh (c : Char) : Prop := c.toLower ∉ phAlphaLower

/-- `hasCopies sep n s`: the string `s` contains at least `n` disjoint
copies of `sep`, in order — it decomposes as
`u₀ ++ sep ++ u₁ ++ sep ++ ⋯ ++ sep ++ uₙ`.  Used to state that every
protected span yields its own verbatim copy of the phrase in the
output. -/
def hasCopies (sep : Str) : Nat → Str → Prop
  | 0, _ => True
  | n + 1, s => ∃ u v, s = u ++ sep ++ v ∧ hasCopies sep n v

/-! ### C4 -/

/-- C4: on `"SSN: 123-45-6789 end"`, the playbook with the single
enabled `\d{3}-\d{2}-\d{4}` MASK rule under SAME_LENGTH_MASK with
`mask_char='*'` produces `"SSN: *********** end"` (the 11 matched
characters each replaced by `*`) and a report with `total_matches = 1`
and singleton per-type and per-id maps. -/
theorem c4_same_length_mask_example :
    applyRules "SSN: 123-45-6789 end".toList pbScenarioA false =
      ("SSN: *********** end".toList,
        { total_matches := 1,
          matches_by_rule_type := [("regex_patterns".toList, 1)],
          matches_by_rule_id := [("ssn".toList, 1)] }) := by
  decide

/-! ### Counterexamples for C1, C2, C3, C5, C6, C8 -/

/-- C1 counterexample: on text `"a"`, with a dictionary rule replacing
`a` by `b` and a later keyword rule matching `b`, a dry run counts 1
match while a live run counts 2: the live REPLACE introduces text the
later rule then matches, so dry-run and live reports differ. -/
theorem c1_dry_live_counts_differ :
    (applyRules "a".toList pbChain true).2.total_matches = 1 ∧
      (applyRules "a".toList pbChain false).2.total_matches = 2 := by
  decide

/-- C2 counterexample: the allowlist protects `Acme` as
`__BLUR_ALLOWLIST_1__`, but a later keyword rule with keyword `BLUR`
matches inside the placeholder and removes it, so restoration fails and
the protected span `Acme` does not survive to the output. -/
theorem c2_placeholder_destroyed :
    (applyRules "Acme".toList pbPlaceholderAttack false).1 =
        "___ALLOWLIST_1__".toList ∧
      ¬ "Acme".toList <:+:
        (applyRules "Acme".toList pbPlaceholderAttack false).1 := by
  decide

/-- C3 counterexample: a dictionary REPLACE rule with
`replacement_template = "[T]"` and dictionary `{"John": "X"}` replaces
`John` by the mapped value `X`, not by the formatted template `[T]`:
the template is ignored for dictionary REPLACE. -/
theorem c3_template_ignored :
    (applyRules "John".toList pbDictTemplate false).1 = "X".toList ∧
      (applyRules "John".toList pbDictTemplate false).1 ≠
        formatT dictTemplateRule.name dictTemplateRule.rule_id
          (templateOr "[BLURRED:{rule_name}]".toList
            dictTemplateRule.replacement_template) := by
  decide

/-- C5 counterexample: with a single allowlist rule whose phrase `Q`
occurs nowhere in the text (so no rule matches anything), the input
`"__BLUR_ALLOWLIST_1__"` is nevertheless rewritten to `"Q"` by the
restoration pass, because `_apply_allowlist` records a placeholder for
every phrase whether or not it occurs; the report is still empty. -/
theorem c5_placeholder_text_rewritten :
    applyRules "__BLUR_ALLOWLIST_1__".toList pbQuiet false =
      ("Q".toList, {}) ∧
      "__BLUR_ALLOWLIST_1__".toList ≠ "Q".toList := by
  decide

/-- C6 counterexample: a part named `word/comments.xml` whose bytes fail
to parse as XML is not carried to the cleaner's output byte-identical:
`_remove_comments_part` drops it regardless of parseability. -/
theorem c6_malformed_comments_part_dropped :
    List.lookup "word/comments.xml".toList
        (cleanDocxParts parseNoneFn renderNilFn
          [("word/comments.xml".toList, [0])]) = none ∧
      parseNoneFn [0] = none :=
  ⟨by rfl, rfl⟩

/-- C8 counterexample: `sanitize_filename` maps `"a!!b"` to `"a_b"` —
the run of two disallowed characters collapses to a single underscore
(the pattern is `[^A-Za-z0-9._-]+`), not one underscore per character as
the claim states. -/
theorem c8_run_collapses_to_one_underscore :
    sanitizeFilename "a!!b".toList = "a_b".toList ∧
      sanitizeFilename "a!!b".toList ≠ "a__b".toList := by
  decide

/-! ### Lemmas on the scan primitives -/

theorem infix_of_front {l s : Str} (h : l <+: s) : l <:+: s :=
  List.IsPrefix.isInfix h

theorem infix_of_back {l s : Str} (h : l <:+ s) : l <:+: s :=
  List.IsSuffix.isInfix h

theorem scanGo_eq_nil {m : Str → Option Nat} :
    ∀ (s : Str) (pos : Nat), (∀ t : Str, t <:+ s → m t = none) →
      scanGo m s pos 0 = [] := by
  intro s
  induction s with
  | nil =>
      intro pos h
      simp [scanGo, h [] (List.suffix_refl [])]
  | cons c rest ih =>
      intro pos h
      have hc : m (c :: rest) = none := h _ (List.suffix_refl _)
      simp only [scanGo, hc]
      exact ih (pos + 1) (fun t ht => h t (ht.trans (List.suffix_cons c rest)))

theorem none_of_scanGo_eq_nil {m : Str → Option Nat} :
    ∀ (s : Str) (pos : Nat), scanGo m s pos 0 = [] →
      ∀ t : Str, t <:+ s → m t = none := by
  intro s
  induction s with
  | nil =>
      intro pos h t ht
      rw [List.suffix_nil.mp ht]
      simp only [scanGo] at h
      cases hm : m [] with
      | none => rfl
      | some l => rw [hm] at h; cases h
  | cons c rest ih =>
      intro pos h t ht
      have hc : m (c :: rest) = none := by
        cases hm : m (c :: rest) with
        | none => rfl
        | some l =>
            cases l with
            | zero =>
                simp only [scanGo, hm] at h
                exact absurd h (List.cons_ne_nil _ _)
            | succ l' =>
                simp only [scanGo, hm] at h
                exact absurd h (List.cons_ne_nil _ _)
      rcases List.suffix_cons_iff.mp ht with heq | ht'
      · rw [heq]; exact hc
      · have hrest : scanGo m rest (pos + 1) 0 = [] := by
          simpa only [scanGo, hc] using h
        exact ih (pos + 1) hrest t ht'

theorem subGo_id {m : Str → Option Nat} {rep : Str → Str} :
    ∀ s : Str, (∀ t : Str, t <:+ s → m t = none) → subGo m rep s 0 = s := by
  intro s
  induction s with
  | nil =>
      intro h
      simp [subGo, h [] (List.suffix_refl [])]
  | cons c rest ih =>
      intro h
      have hc : m (c :: rest) = none := h _ (List.suffix_refl _)
      simp only [subGo, hc]
      rw [ih (fun t ht => h t (ht.trans (List.suffix_cons c rest)))]

theorem subAccGo_id {α : Type} {m : Str → Option Nat}
    {rep : Str → α → Str × α} :
    ∀ (s : Str) (a : α), (∀ t : Str, t <:+ s → m t = none) →
      subAccGo m rep s 0 a = (s, a) := by
  intro s
  induction s with
  | nil =>
      intro a h
      simp [subAccGo, h [] (List.suffix_refl [])]
  | cons c rest ih =>
      intro a h
      have hc : m (c :: rest) = none := h _ (List.suffix_refl _)
      simp only [subAccGo, hc]
      rw [ih a (fun t ht => h t (ht.trans (List.suffix_cons c rest)))]

theorem ciPrefixOf_false_iff {k t : Str} :
    ciPrefixOf false k t = true ↔ k <+: t := by
  induction k generalizing t with
  | nil => simp [ciPrefixOf]
  | cons a ks ih =>
      cases t with
      | nil => simp [ciPrefixOf]
      | cons b ts =>
          simp only [ciPrefixOf, charEqB, Bool.and_eq_true, beq_iff_eq,
            Bool.false_eq_true, if_false, List.cons_prefix_cons]
          exact and_congr Iff.rfl ih

theorem litM_none_of_no_occurrence {k s : Str} (h : ¬ k <:+: s) :
    ∀ t : Str, t <:+ s → litM false k t = none := by
  intro t ht
  unfold litM
  cases hp : ciPrefixOf false k t with
  | false => simp
  | true =>
      exact absurd (List.IsInfix.trans
        (infix_of_front (ciPrefixOf_false_iff.mp hp)) (infix_of_back ht)) h

theorem kwM_none_of_all_none {ci : Bool} {t : Str} :
    ∀ kws : List Str, (∀ k ∈ kws, litM ci k t = none) →
      kwM ci kws t = none := by
  intro kws
  induction kws with
  | nil => intro _; rfl
  | cons k ks ih =>
      intro h
      have hk := h k (List.mem_cons_self k ks)
      unfold litM at hk
      have hp : ciPrefixOf ci k t = false := by
        cases hpc : ciPrefixOf ci k t with
        | false => rfl
        | true => rw [hpc] at hk; simp at hk
      simp only [kwM, hp, if_false]
      exact ih (fun k' hk' => h k' (List.mem_cons_of_mem _ hk'))

/-! ### Membership through the stable priority sort -/

theorem mem_insertByPriority {x r : Rule} :
    ∀ l : List Rule, x ∈ insertByPriority r l ↔ x = r ∨ x ∈ l := by
  intro l
  induction l with
  | nil => simp [insertByPriority]
  | cons y ys ih =>
      by_cases hp : y.priority ≤ r.priority
      · simp only [insertByPriority, if_pos hp, List.mem_cons, ih]
        try tauto
      · simp only [insertByPriority, if_neg hp, List.mem_cons]
        try tauto

theorem mem_sortByPriority_aux {x : Rule} :
    ∀ (l acc : List Rule),
      x ∈ l.foldl (fun acc r => insertByPriority r acc) acc ↔
        x ∈ acc ∨ x ∈ l := by
  intro l
  induction l with
  | nil => simp
  | cons r rs ih =>
      intro acc
      simp only [List.foldl_cons, ih, mem_insertByPriority, List.mem_cons]
      tauto

theorem mem_rulesByType {r : Rule} {pb : Playbook} {ty : Str}
    (h : r ∈ rulesByType pb ty) :
    r ∈ pb.rules ∧ r.rule_type = ty ∧ r.enabled = true := by
  unfold rulesByType sortByPriority at h
  have := (mem_sortByPriority_aux _ []).mp h
  simp only [List.mem_filter, List.not_mem_nil, false_or,
    Bool.and_eq_true, decide_eq_true_eq] at this
  exact ⟨this.1, this.2.1, this.2.2⟩

/-! ### C5: inert playbooks -/

theorem pythonReplace_id {p q text : Str}
    (h : findAll (litM false p) text = []) :
    pythonReplace p q text = text :=
  subGo_id text (none_of_scanGo_eq_nil text 0 h)

theorem allowPhrases_inert {text : Str} :
    ∀ (ps : List Str) (c : Nat) (l : List (Str × Str)),
      (∀ p ∈ ps, findAll (litM false p) text = []) →
      (allowPhrases ps (text, c, l)).1 = text ∧
        ∀ kv ∈ (allowPhrases ps (text, c, l)).2.2,
          kv ∈ l ∨ placeholderStem <+: kv.1 := by
  intro ps
  induction ps with
  | nil => intro c l _; exact ⟨rfl, fun kv hkv => Or.inl hkv⟩
  | cons p ps ih =>
      intro c l h
      have hrep : pythonReplace p (phToken (c + 1)) text = text :=
        pythonReplace_id (h p (List.mem_cons_self p ps))
      have step :
          allowPhrases (p :: ps) (text, c, l) =
            allowPhrases ps (text, c + 1, l ++ [(phToken (c + 1), p)]) := by
        simp only [allowPhrases, hrep]
      rw [step]
      obtain ⟨h1, h2⟩ := ih (c + 1) (l ++ [(phToken (c + 1), p)])
        (fun p' hp' => h p' (List.mem_cons_of_mem _ hp'))
      refine ⟨h1, fun kv hkv => ?_⟩
      rcases h2 kv hkv with hin | hpre
      · rcases List.mem_append.mp hin with hl | hnew
        · exact Or.inl hl
        · right
          have : kv = (phToken (c + 1), p) := by simpa using hnew
          rw [this]
          exact ⟨natStr (c + 1) ++ "__".toList, by simp [phToken]⟩
      · exact Or.inr hpre

theorem allowPatterns_inert {text : Str} {ci : Bool} :
    ∀ (es : List PatternEntry) (c : Nat) (l : List (Str × Str)),
      (∀ e ∈ es, ∀ rgx, e.pattern = some rgx →
        findAll (rgxM (ci || e.case_insensitive) rgx) text = []) →
      allowPatterns ci es (text, c, l) = (text, c, l) := by
  intro es
  induction es with
  | nil => intro c l _; rfl
  | cons e es ih =>
      intro c l h
      cases hp : e.pattern with
      | none =>
          simp only [allowPatterns, hp]
          exact ih c l (fun e' he' => h e' (List.mem_cons_of_mem _ he'))
      | some rgx =>
          have hnil := h e (List.mem_cons_self e es) rgx hp
          have hid := @subAccGo_id (Nat × List (Str × Str))
            (rgxM (ci || e.case_insensitive) rgx)
            (fun mt st =>
              (phToken (st.1 + 1),
                (st.1 + 1, st.2 ++ [(phToken (st.1 + 1), mt)])))
            text (c, l) (none_of_scanGo_eq_nil text 0 hnil)
          simp only [allowPatterns, hp, hid]
          exact ih c l (fun e' he' => h e' (List.mem_cons_of_mem _ he'))

theorem applyAllowlist_inert {text : Str} :
    ∀ (rs : List Rule) (c : Nat) (l : List (Str × Str)),
      (∀ r ∈ rs,
        (∀ p ∈ r.phrases, findAll (litM false p) text = []) ∧
        (∀ e ∈ r.patterns, ∀ rgx, e.pattern = some rgx →
          findAll (rgxM (r.case_insensitive || e.case_insensitive) rgx) text
            = [])) →
      (applyAllowlist rs (text, c, l)).1 = text ∧
        ∀ kv ∈ (applyAllowlist rs (text, c, l)).2.2,
          kv ∈ l ∨ placeholderStem <+: kv.1 := by
  intro rs
  induction rs with
  | nil => intro c l _; exact ⟨rfl, fun kv hkv => Or.inl hkv⟩
  | cons r rs ih =>
      intro c l h
      obtain ⟨hph, hpat⟩ := h r (List.mem_cons_self r rs)
      obtain ⟨hp1, hp2⟩ := allowPhrases_inert r.phrases c l hph
      cases hE : allowPhrases r.phrases (text, c, l) with
      | mk t1 p1 =>
          cases p1 with
          | mk c1 l1 =>
              rw [hE] at hp1 hp2
              simp only at hp1 hp2
              subst hp1
              have hpatE := allowPatterns_inert r.patterns c1 l1 hpat
              simp only [applyAllowlist, hE, hpatE]
              obtain ⟨ih1, ih2⟩ := ih c1 l1
                (fun r' hr' => h r' (List.mem_cons_of_mem _ hr'))
              refine ⟨ih1, fun kv hkv => ?_⟩
              rcases ih2 kv hkv with hin | hpre
              · exact hp2 kv hin
              · exact Or.inr hpre

theorem applyDictGo_inert {text : Str} {rule : Rule} {pb : Playbook}
    {d : Bool} :
    ∀ (entries : List (Str × Str)) (rep : RuleMatchReport),
      (∀ kv ∈ entries,
        findAll (litM rule.case_insensitive kv.1) text = []) →
      applyDictGo rule pb d entries text rep = (text, rep) := by
  intro entries
  induction entries with
  | nil => intro rep _; rfl
  | cons kv es ih =>
      intro rep h
      have hnil := h kv (List.mem_cons_self kv es)
      simp only [applyDictGo, hnil, if_pos rfl]
      exact ih rep (fun kv' hkv' => h kv' (List.mem_cons_of_mem _ hkv'))

theorem applyRegexGo_inert {text : Str} {rule : Rule} {pb : Playbook}
    {d : Bool} :
    ∀ (es : List PatternEntry) (rep : RuleMatchReport),
      (∀ e ∈ es, ∀ rgx, e.pattern = some rgx →
        findAll (rgxM (rule.case_insensitive || e.case_insensitive) rgx) text
          = []) →
      applyRegexGo rule pb d es text rep = (text, rep) := by
  intro es
  induction es with
  | nil => intro rep _; rfl
  | cons e es ih =>
      intro rep h
      cases hp : e.pattern with
      | none =>
          simp only [applyRegexGo, hp]
          exact ih rep (fun e' he' => h e' (List.mem_cons_of_mem _ he'))
      | some rgx =>
          have hnil := h e (List.mem_cons_self e es) rgx hp
          simp only [applyRegexGo, hp, hnil, if_pos rfl]
          exact ih rep (fun e' he' => h e' (List.mem_cons_of_mem _ he'))

theorem applyKeywords_inert {text : Str} {rule : Rule} {pb : Playbook}
    {d : Bool} {rep : RuleMatchReport}
    (h : ∀ k ∈ rule.keywords,
      findAll (litM rule.case_insensitive k) text = []) :
    applyKeywords text rule pb rep d = (text, rep) := by
  unfold applyKeywords
  by_cases hk : rule.keywords = []
  · simp [hk]
  · have hnil : findAll (kwM rule.case_insensitive rule.keywords) text = [] := by
      apply scanGo_eq_nil
      intro t ht
      apply kwM_none_of_all_none
      intro k hkm
      exact none_of_scanGo_eq_nil text 0 (h k hkm) t ht
    simp [hk, hnil]

theorem applyRule_inert {text : Str} {rule : Rule} {pb : Playbook}
    {d : Bool} {rep : RuleMatchReport} (h : ruleInert rule text) :
    applyRule text rule pb rep d = (text, rep) := by
  obtain ⟨h1, h2, h3, h4⟩ := h
  unfold applyRule
  by_cases hd : rule.rule_type = "dictionary_entities".toList
  · simp only [hd, if_pos rfl]
    exact applyDictGo_inert rule.dictionary rep h3
  · rw [if_neg hd]
    by_cases hr : rule.rule_type = "regex_patterns".toList
    · simp only [hr, if_pos rfl]
      exact applyRegexGo_inert rule.patterns rep h2
    · rw [if_neg hr]
      by_cases hk : rule.rule_type = "keyword_list".toList
      · simp only [hk, if_pos rfl]
        exact applyKeywords_inert h4
      · rw [if_neg hk]

theorem foldRules_inert {text : Str} {pb : Playbook} {d : Bool} :
    ∀ (rules : List Rule) (rep : RuleMatchReport),
      (∀ r ∈ rules, ruleInert r text) →
      rules.foldl
        (fun (st : Str × RuleMatchReport) r => applyRule st.1 r pb st.2 d)
        (text, rep) = (text, rep) := by
  intro rules
  induction rules with
  | nil => intro rep _; rfl
  | cons r rs ih =>
      intro rep h
      simp only [List.foldl_cons,
        applyRule_inert (h r (List.mem_cons_self r rs))]
      exact ih rep (fun r' hr' => h r' (List.mem_cons_of_mem _ hr'))

theorem restorePlaceholders_id {text : Str} :
    ∀ (phs : List (Str × Str)),
      (∀ kv ∈ phs, placeholderStem <+: kv.1) →
      ¬ placeholderStem <:+: text →
      restorePlaceholders phs text = text := by
  intro phs
  induction phs with
  | nil => intro _ _; rfl
  | cons kv phs ih =>
      intro h hstem
      have hkv := h kv (List.mem_cons_self kv phs)
      have hnotin : ¬ kv.1 <:+: text := by
        intro hin
        exact hstem (List.IsInfix.trans (infix_of_front hkv) hin)
      have hrep : pythonReplace kv.1 kv.2 text = text :=
        subGo_id text (litM_none_of_no_occurrence hnotin)
      simp only [restorePlaceholders, List.foldl_cons, hrep]
      exact ih (fun kv' hkv' => h kv' (List.mem_cons_of_mem _ hkv')) hstem

/-- C5 (amended): if no enabled rule's phrases, patterns, dictionary
keys or keywords match anywhere in the text, and additionally the text
contains no occurrence of the placeholder stem `__BLUR_ALLOWLIST_`,
then `apply_rules` returns the text unchanged together with a report
whose total is 0 and whose per-type and per-id maps are empty (in both
dry and live mode). -/
theorem c5_amended_no_match_identity (text : Str) (pb : Playbook)
    (d : Bool)
    (hin : ∀ r ∈ pb.rules, r.enabled = true → ruleInert r text)
    (hstem : ¬ placeholderStem <:+: text) :
    applyRules text pb d = (text, {}) := by
  have hinert : ∀ ty : Str, ∀ r ∈ rulesByType pb ty, ruleInert r text := by
    intro ty r hr
    obtain ⟨hmem, _, hen⟩ := mem_rulesByType hr
    exact hin r hmem hen
  have hal : ∀ r ∈ rulesByType pb "allowlist".toList,
      (∀ p ∈ r.phrases, findAll (litM false p) text = []) ∧
      (∀ e ∈ r.patterns, ∀ rgx, e.pattern = some rgx →
        findAll (rgxM (r.case_insensitive || e.case_insensitive) rgx) text
          = []) := by
    intro r hr
    obtain ⟨h1, h2, _, _⟩ := hinert _ r hr
    exact ⟨h1, h2⟩
  obtain ⟨hA1, hA2⟩ :=
    applyAllowlist_inert (rulesByType pb "allowlist".toList) 0 [] hal
  cases hE : applyAllowlist (rulesByType pb "allowlist".toList)
      (text, 0, []) with
  | mk t1 p1 =>
      cases p1 with
      | mk c1 l1 =>
          rw [hE] at hA1 hA2
          simp only at hA1 hA2
          subst hA1
          have hph : ∀ kv ∈ l1, placeholderStem <+: kv.1 := by
            intro kv hkv
            rcases hA2 kv hkv with hfalse | hpre
            · exact absurd hfalse (List.not_mem_nil kv)
            · exact hpre
          have h1 := @foldRules_inert t1 pb d
            (rulesByType pb "dictionary_entities".toList) {}
            (hinert "dictionary_entities".toList)
          have h2 := @foldRules_inert t1 pb d
            (rulesByType pb "regex_patterns".toList) {}
            (hinert "regex_patterns".toList)
          have h3 := @foldRules_inert t1 pb d
            (rulesByType pb "keyword_list".toList) {}
            (hinert "keyword_list".toList)
          simp only [applyRules, hE, h1, h2, h3]
          exact congrArg (fun s => (s, ({} : RuleMatchReport)))
            (restorePlaceholders_id l1 hph hstem)

/-- Witness for the C5 amended theorem: a concrete inert playbook on a
concrete text. -/
theorem c5_amended_no_match_identity_app :
    applyRules "hello".toList pbQuiet false = ("hello".toList, {}) := by
  apply c5_amended_no_match_identity
  · intro r hr _
    have hrq : r = quietAllowRule := by simpa [pbQuiet] using hr
    subst hrq
    refine ⟨?_, ?_, ?_, ?_⟩
    · intro p hp
      have hq : p = "Q".toList := by simpa [quietAllowRule] using hp
      subst hq
      decide
    · intro e he
      exact absurd he (by simp [quietAllowRule])
    · intro kv hkv
      exact absurd hkv (by simp [quietAllowRule])
    · intro k hk
      exact absurd hk (by simp [quietAllowRule])
  · decide

/-! ### C3: dictionary REPLACE uses the mapped value -/

/-- C3 (amended): for a playbook whose only enabled non-allowlist rule
is a case-sensitive dictionary rule with action REPLACE and a single
entry `key ↦ val`, a live `apply_rules` replaces every occurrence of
`key` with the mapped value `val` — regardless of
`replacement_template`, which is never consulted for dictionary
REPLACE (only when no template is present does the claim's description
match; when a template is present it is still the mapped value that is
used). -/
theorem c3_amended_mapped_value_used (text key val : Str) (r : Rule)
    (pb : Playbook)
    (hal : rulesByType pb "allowlist".toList = [])
    (hd : rulesByType pb "dictionary_entities".toList = [r])
    (hdict : r.dictionary = [(key, val)])
    (hact : r.action = "REPLACE".toList)
    (hci : r.case_insensitive = false)
    (hrx : rulesByType pb "regex_patterns".toList = [])
    (hkw : rulesByType pb "keyword_list".toList = []) :
    (applyRules text pb false).1 =
      subGo (litM false key) (fun _ => val) text 0 := by
  have hmem : r ∈ rulesByType pb "dictionary_entities".toList := by
    rw [hd]; exact List.mem_cons_self r []
  have htype := (mem_rulesByType hmem).2.1
  have hnotrem : ¬ r.action = "REMOVE".toList := by
    rw [hact]; decide
  simp only [applyRules, hal, hd, hrx, hkw, applyAllowlist,
    List.foldl_cons, List.foldl_nil, applyRule, htype, if_pos,
    applyDictionary, hdict, restorePlaceholders]
  by_cases hms : findAll (litM r.case_insensitive key) text = []
  · have hrhs : subGo (litM false key) (fun _ => val) text 0 = text := by
      rw [hci] at hms
      exact subGo_id text (none_of_scanGo_eq_nil text 0 hms)
    simp only [applyDictGo, hms, if_pos, List.foldl_nil, hrhs]
  · rw [hci] at hms
    simp only [applyDictGo, hci, hact, if_neg hms, List.foldl_nil]
    rw [if_neg (show ¬ "REPLACE".toList = "REMOVE".toList by decide)]
    simp

/-- Witness for the C3 amended theorem: `pbDictTemplate` carries the
template `[T]`, yet the live run substitutes the mapped value. -/
theorem c3_amended_mapped_value_used_app :
    (applyRules "John".toList pbDictTemplate false).1 =
      subGo (litM false "John".toList) (fun _ => "X".toList)
        "John".toList 0 := by
  apply c3_amended_mapped_value_used "John".toList "John".toList "X".toList
      dictTemplateRule pbDictTemplate <;> decide

/-! ### C1: dry-run versus live reports -/

theorem applyDictionary_report_dry_live {s : Str} {r : Rule}
    {pb : Playbook} {rep : RuleMatchReport}
    (hlen : r.dictionary.length ≤ 1) :
    (applyDictionary s r pb rep true).2 =
      (applyDictionary s r pb rep false).2 := by
  unfold applyDictionary
  cases hde : r.dictionary with
  | nil => rfl
  | cons kv tl =>
      cases tl with
      | cons kv2 tl2 => rw [hde] at hlen; simp at hlen
      | nil =>
          obtain ⟨k, v⟩ := kv
          simp only [applyDictGo]
          by_cases hms : findAll (litM r.case_insensitive k) s = []
          · simp [hms]
          · simp [hms]

theorem applyRegexPatterns_report_dry_live {s : Str} {r : Rule}
    {pb : Playbook} {rep : RuleMatchReport}
    (hlen : r.patterns.length ≤ 1) :
    (applyRegexPatterns s r pb rep true).2 =
      (applyRegexPatterns s r pb rep false).2 := by
  unfold applyRegexPatterns
  cases hde : r.patterns with
  | nil => rfl
  | cons e tl =>
      cases tl with
      | cons e2 tl2 => rw [hde] at hlen; simp at hlen
      | nil =>
          simp only [applyRegexGo]
          cases hp : e.pattern with
          | none => rfl
          | some rgx =>
              by_cases hms : findAll
                  (rgxM (r.case_insensitive || e.case_insensitive) rgx) s
                    = []
              · simp [hms]
              · simp [hms]

theorem applyKeywords_report_dry_live {s : Str} {r : Rule}
    {pb : Playbook} {rep : RuleMatchReport} :
    (applyKeywords s r pb rep true).2 =
      (applyKeywords s r pb rep false).2 := by
  unfold applyKeywords
  by_cases hk : r.keywords = []
  · simp [hk]
  · by_cases hms : findAll (kwM r.case_insensitive r.keywords) s = []
    · simp [hk, hms]
    · simp [hk, hms]

/-- C1 (amended): dry-run and live reports agree (total, per-type map
and per-id map) whenever the playbook's enabled non-allowlist rules
amount to at most one rule carrying at most one matching unit (at most
one dictionary entry, at most one pattern entry, or a single
keyword-list rule).  In general they differ: a live run's earlier
replacement can create or destroy matches for later matching steps,
which the non-mutating dry run cannot observe
(`c1_dry_live_counts_differ`). -/
theorem c1_amended_single_unit_reports_eq (text : Str) (pb : Playbook)
    (h :
      (∃ r, rulesByType pb "dictionary_entities".toList = [r] ∧
        r.dictionary.length ≤ 1 ∧
        rulesByType pb "regex_patterns".toList = [] ∧
        rulesByType pb "keyword_list".toList = []) ∨
      (∃ r, rulesByType pb "regex_patterns".toList = [r] ∧
        r.patterns.length ≤ 1 ∧
        rulesByType pb "dictionary_entities".toList = [] ∧
        rulesByType pb "keyword_list".toList = []) ∨
      (∃ r, rulesByType pb "keyword_list".toList = [r] ∧
        rulesByType pb "dictionary_entities".toList = [] ∧
        rulesByType pb "regex_patterns".toList = []) ∨
      (rulesByType pb "dictionary_entities".toList = [] ∧
        rulesByType pb "regex_patterns".toList = [] ∧
        rulesByType pb "keyword_list".toList = [])) :
    (applyRules text pb true).2 = (applyRules text pb false).2 := by
  cases hE : applyAllowlist (rulesByType pb "allowlist".toList)
      (text, 0, []) with
  | mk pt rest =>
      cases rest with
      | mk c1 l1 =>
          rcases h with ⟨r, hd, hlen, hrx, hkw⟩ | ⟨r, hrx, hlen, hd, hkw⟩ |
            ⟨r, hkw, hd, hrx⟩ | ⟨hd, hrx, hkw⟩
          · have htype := (mem_rulesByType
              (hd ▸ List.mem_cons_self r [] :
                r ∈ rulesByType pb "dictionary_entities".toList)).2.1
            simp only [applyRules, hE, hd, hrx, hkw, List.foldl_cons,
              List.foldl_nil, applyRule, htype, if_pos]
            exact applyDictionary_report_dry_live hlen
          · have htype := (mem_rulesByType
              (hrx ▸ List.mem_cons_self r [] :
                r ∈ rulesByType pb "regex_patterns".toList)).2.1
            have hnotd : ¬ r.rule_type = "dictionary_entities".toList := by
              rw [htype]; decide
            simp only [applyRules, hE, hd, hrx, hkw, List.foldl_cons,
              List.foldl_nil, applyRule, htype, if_pos, if_neg hnotd]
            exact applyRegexPatterns_report_dry_live hlen
          · have htype := (mem_rulesByType
              (hkw ▸ List.mem_cons_self r [] :
                r ∈ rulesByType pb "keyword_list".toList)).2.1
            have hnotd : ¬ r.rule_type = "dictionary_entities".toList := by
              rw [htype]; decide
            have hnotr : ¬ r.rule_type = "regex_patterns".toList := by
              rw [htype]; decide
            simp only [applyRules, hE, hd, hrx, hkw, List.foldl_cons,
              List.foldl_nil, applyRule, htype, if_pos, if_neg hnotd,
              if_neg hnotr]
            exact applyKeywords_report_dry_live
          · simp only [applyRules, hE, hd, hrx, hkw, List.foldl_nil]

/-- Witness for the C1 amended theorem: a single keyword rule playbook
reports identically in dry and live mode. -/
theorem c1_amended_single_unit_reports_eq_app :
    (applyRules "b b".toList
        { name := "x".toList, version := "1".toList,
          rules := [chainKwRule] } true).2 =
      (applyRules "b b".toList
        { name := "x".toList, version := "1".toList,
          rules := [chainKwRule] } false).2 := by
  apply c1_amended_single_unit_reports_eq
  right; right; left
  exact ⟨chainKwRule, by decide, by decide, by decide⟩

/-! ### C9: the report invariant -/

theorem sumVals_setK (k : Str) (c : Nat) :
    ∀ m : List (Str × Nat),
      sumVals (setK m k (getD m k + c)) = sumVals m + c := by
  intro m
  induction m with
  | nil => simp [setK, getD, sumVals]
  | cons kv rest ih =>
      obtain ⟨k', v'⟩ := kv
      by_cases hk : k' = k
      · subst hk
        simp [setK, getD, sumVals]
        omega
      · simp [setK, getD, hk, sumVals, ih]
        omega

theorem pos_setK {k : Str} {v : Nat} (hv : 0 < v) :
    ∀ m : List (Str × Nat), (∀ kv ∈ m, 0 < kv.2) →
      ∀ kv ∈ setK m k v, 0 < kv.2 := by
  intro m
  induction m with
  | nil =>
      intro _ kv hkv
      simp only [setK, List.mem_singleton] at hkv
      rw [hkv]
      exact hv
  | cons kv0 rest ih =>
      intro hm kv hkv
      obtain ⟨k', v'⟩ := kv0
      by_cases hk : k' = k
      · subst hk
        simp only [setK, if_pos, List.mem_cons] at hkv
        rcases hkv with h | h
        · rw [h]; exact hv
        · exact hm kv (List.mem_cons_of_mem _ h)
      · simp only [setK, hk, if_false, List.mem_cons] at hkv
        rcases hkv with h | h
        · rw [h]; exact hm _ (List.mem_cons_self _ _)
        · exact ih (fun kv' hkv' => hm kv' (List.mem_cons_of_mem _ hkv'))
            kv h

theorem valid_registerMatch {rep : RuleMatchReport} {rule : Rule}
    {c : Nat} (h : validReport rep) :
    validReport (registerMatch rep rule c) := by
  obtain ⟨h1, h2, h3, h4⟩ := h
  unfold registerMatch
  by_cases hc : c = 0
  · simp [hc]; exact ⟨h1, h2, h3, h4⟩
  · have hcpos : 0 < c := Nat.pos_of_ne_zero hc
    rw [if_neg hc]
    refine ⟨?_, ?_, ?_, ?_⟩
    · simp only [sumVals_setK, h1]
    · simp only [sumVals_setK, h2]
    · exact pos_setK (Nat.lt_of_lt_of_le hcpos (Nat.le_add_left c _)) _ h3
    · exact pos_setK (Nat.lt_of_lt_of_le hcpos (Nat.le_add_left c _)) _ h4

theorem valid_emptyReport : validReport {} := by decide

theorem sumVals_mergeFold :
    ∀ (l m : List (Str × Nat)),
      sumVals (l.foldl (fun m kv => setK m kv.1 (getD m kv.1 + kv.2)) m) =
        sumVals m + sumVals l := by
  intro l
  induction l with
  | nil => intro m; simp [sumVals]
  | cons kv rest ih =>
      intro m
      simp only [List.foldl_cons, ih, sumVals_setK, sumVals]
      omega

theorem pos_mergeFold :
    ∀ (l m : List (Str × Nat)), (∀ kv ∈ m, 0 < kv.2) →
      (∀ kv ∈ l, 0 < kv.2) →
      ∀ kv ∈ l.foldl (fun m kv => setK m kv.1 (getD m kv.1 + kv.2)) m,
        0 < kv.2 := by
  intro l
  induction l with
  | nil => intro m hm _ kv hkv; exact hm kv hkv
  | cons kv0 rest ih =>
      intro m hm hl kv hkv
      simp only [List.foldl_cons] at hkv
      refine ih _ ?_ (fun kv' hkv' => hl kv' (List.mem_cons_of_mem _ hkv'))
        kv hkv
      exact pos_setK
        (Nat.lt_of_lt_of_le (hl kv0 (List.mem_cons_self _ _))
          (Nat.le_add_left _ _)) m hm

theorem valid_mergeReports {a b : RuleMatchReport} (ha : validReport a)
    (hb : validReport b) : validReport (mergeReports a b) := by
  obtain ⟨ha1, ha2, ha3, ha4⟩ := ha
  obtain ⟨hb1, hb2, hb3, hb4⟩ := hb
  refine ⟨?_, ?_, ?_, ?_⟩
  · simp only [mergeReports, sumVals_mergeFold, ha1, hb1]
  · simp only [mergeReports, sumVals_mergeFold, ha2, hb2]
  · exact pos_mergeFold _ _ ha3 hb3
  · exact pos_mergeFold _ _ ha4 hb4

theorem valid_applyDictGo {rule : Rule} {pb : Playbook} {d : Bool} :
    ∀ (entries : List (Str × Str)) (s : Str) (rep : RuleMatchReport),
      validReport rep → validReport (applyDictGo rule pb d entries s rep).2 := by
  intro entries
  induction entries with
  | nil => intro s rep h; exact h
  | cons kv rest ih =>
      intro s rep h
      obtain ⟨k, v⟩ := kv
      simp only [applyDictGo]
      by_cases hms : findAll (litM rule.case_insensitive k) s = []
      · simp only [hms, if_pos]; exact ih s rep h
      · simp only [if_neg hms]
        cases d with
        | true =>
            rw [if_pos rfl]
            exact ih s _ (valid_registerMatch h)
        | false =>
            rw [if_neg Bool.false_ne_true]
            exact ih _ _ (valid_registerMatch h)

theorem valid_applyRegexGo {rule : Rule} {pb : Playbook} {d : Bool} :
    ∀ (es : List PatternEntry) (s : Str) (rep : RuleMatchReport),
      validReport rep → validReport (applyRegexGo rule pb d es s rep).2 := by
  intro es
  induction es with
  | nil => intro s rep h; exact h
  | cons e rest ih =>
      intro s rep h
      simp only [applyRegexGo]
      cases hp : e.pattern with
      | none => exact ih s rep h
      | some rgx =>
          by_cases hms : findAll
              (rgxM (rule.case_insensitive || e.case_insensitive) rgx) s = []
          · simp only [hms, if_pos]; exact ih s rep h
          · simp only [if_neg hms]
            cases d with
            | true =>
                rw [if_pos rfl]
                exact ih s _ (valid_registerMatch h)
            | false =>
                rw [if_neg Bool.false_ne_true]
                exact ih _ _ (valid_registerMatch h)

theorem valid_applyKeywords {s : Str} {rule : Rule} {pb : Playbook}
    {d : Bool} {rep : RuleMatchReport} (h : validReport rep) :
    validReport (applyKeywords s rule pb rep d).2 := by
  unfold applyKeywords
  by_cases hk : rule.keywords = []
  · simp only [hk, if_pos]; exact h
  · rw [if_neg hk]
    by_cases hms : findAll (kwM rule.case_insensitive rule.keywords) s = []
    · simp only [hms, if_pos]; exact h
    · rw [if_neg hms]
      cases d with
      | true =>
          rw [if_pos rfl]
          exact valid_registerMatch h
      | false =>
          rw [if_neg Bool.false_ne_true]
          exact valid_registerMatch h

theorem valid_applyRule {s : Str} {rule : Rule} {pb : Playbook}
    {d : Bool} {rep : RuleMatchReport} (h : validReport rep) :
    validReport (applyRule s rule pb rep d).2 := by
  unfold applyRule
  by_cases h1 : rule.rule_type = "dictionary_entities".toList
  · simp only [h1, if_pos]
    exact valid_applyDictGo rule.dictionary s rep h
  · rw [if_neg h1]
    by_cases h2 : rule.rule_type = "regex_patterns".toList
    · simp only [h2, if_pos]
      exact valid_applyRegexGo rule.patterns s rep h
    · rw [if_neg h2]
      by_cases h3 : rule.rule_type = "keyword_list".toList
      · simp only [h3, if_pos]
        exact valid_applyKeywords h
      · rw [if_neg h3]; exact h

theorem valid_foldRules {pb : Playbook} {d : Bool} :
    ∀ (rules : List Rule) (st : Str × RuleMatchReport),
      validReport st.2 →
      validReport ((rules.foldl
        (fun (st : Str × RuleMatchReport) r => applyRule st.1 r pb st.2 d)
        st).2) := by
  intro rules
  induction rules with
  | nil => intro st h; exact h
  | cons r rs ih =>
      intro st h
      simp only [List.foldl_cons]
      exact ih _ (valid_applyRule h)

/-- C9: every report `apply_rules` produces satisfies the invariant —
`total_matches` equals the sum of the per-rule-type map's values and the
sum of the per-rule-id map's values, and every stored value is strictly
positive — and the invariant is preserved by `_merge_reports`
aggregation of two such reports. -/
theorem c9_report_invariant_holds :
    (∀ (text : Str) (pb : Playbook) (d : Bool),
        validReport (applyRules text pb d).2) ∧
      ∀ a b : RuleMatchReport, validReport a → validReport b →
        validReport (mergeReports a b) := by
  constructor
  · intro text pb d
    cases hE : applyAllowlist (rulesByType pb "allowlist".toList)
        (text, 0, []) with
    | mk pt rest =>
        cases rest with
        | mk c1 l1 =>
            simp only [applyRules, hE]
            exact valid_foldRules _ _ (valid_foldRules _ _
              (valid_foldRules _ _ valid_emptyReport))
  · intro a b ha hb
    exact valid_mergeReports ha hb

/-- Witness for C9: the invariant on a concrete live report and on a
concrete merge. -/
theorem c9_report_invariant_holds_app :
    validReport (applyRules "a".toList pbChain false).2 ∧
      validReport (mergeReports
        { total_matches := 2,
          matches_by_rule_type := [("keyword_list".toList, 2)],
          matches_by_rule_id := [("k".toList, 2)] }
        { total_matches := 1,
          matches_by_rule_type := [("keyword_list".toList, 1)],
          matches_by_rule_id := [("j".toList, 1)] }) :=
  ⟨c9_report_invariant_holds.1 "a".toList pbChain false,
    c9_report_invariant_holds.2 _ _ (by decide) (by decide)⟩

/-! ### C10: totality of the decode chain -/

theorem latin1Go_total :
    ∀ data : Bytes, (∀ b ∈ data, b < 256) →
      ∃ s : Str, latin1Go data = some s := by
  intro data
  induction data with
  | nil => intro _; exact ⟨[], rfl⟩
  | cons b rest ih =>
      intro h
      obtain ⟨s, hs⟩ := ih (fun b' hb' => h b' (List.mem_cons_of_mem _ hb'))
      refine ⟨Char.ofNat b :: s, ?_⟩
      have hb : b ≤ 0xFF := Nat.le_of_lt_succ (h b (List.mem_cons_self b rest))
      simp [latin1Go, latin1Char, hb, hs]

/-- C10: `decode_text_bytes` is total on byte strings — the strict
stage chain (utf-8, then cp1251, then latin-1) always succeeds because
latin-1 accepts every byte value, so the final `errors="replace"`
branch is unreachable and the function's result is always produced by
one of the three strict decoders. -/
theorem c10_decode_total (data : Bytes) (h : ∀ b ∈ data, b < 256) :
    (decodeStrictChain data).isSome = true ∧
      some (decodeTextBytes data) = decodeStrictChain data := by
  unfold decodeStrictChain decodeTextBytes
  cases hu : utf8Go data with
  | some s => simp [decodeStrictChain, hu]
  | none =>
      cases hc : cp1251Go data with
      | some s => simp [decodeStrictChain, hu, hc]
      | none =>
          obtain ⟨s, hs⟩ := latin1Go_total data h
          simp [decodeStrictChain, hu, hc, hs]

/-- Witness for C10: bytes that fail utf-8 (lone continuation byte) and
fail cp1251 (undefined byte 0x98) still decode through latin-1. -/
theorem c10_decode_total_app :
    (∀ b ∈ ([0x98, 0xFF] : Bytes), b < 256) ∧
      ((decodeStrictChain [0x98, 0xFF]).isSome = true ∧
        some (decodeTextBytes [0x98, 0xFF]) =
          decodeStrictChain [0x98, 0xFF]) :=
  ⟨by decide, c10_decode_total [0x98, 0xFF] (by decide)⟩

/-! ### C8: sanitisation -/

theorem not_ws_of_safe {c : Char} (h : isSafeChar c = true) :
    isStripWs c = false := by
  cases hws : isStripWs c with
  | false => rfl
  | true =>
      exfalso
      simp only [isStripWs, Bool.or_eq_true, beq_iff_eq] at hws
      rcases hws with ((((h1 | h1) | h1) | h1) | h1) | h1 <;> subst h1 <;>
        exact absurd h (by decide)

theorem pyStrip_of_ends {a b : Char} (mid : Str)
    (ha : isStripWs a = false) (hb : isStripWs b = false) :
    pyStrip (a :: mid ++ [b]) = a :: mid ++ [b] := by
  simp [pyStrip, List.dropWhile_cons, ha, hb, List.reverse_append]

theorem squash_safe :
    ∀ l : Str, (∀ c ∈ l, isSafeChar c = true) → ∀ flag : Bool,
      squashRuns l flag = l := by
  intro l
  induction l with
  | nil => intro _ _; rfl
  | cons d l' ih =>
      intro h flag
      have hd := h d (List.mem_cons_self d l')
      simp only [squashRuns, hd, if_pos]
      rw [ih (fun c hc => h c (List.mem_cons_of_mem _ hc)) false]

theorem squash_prefix_safe {rest : Str} :
    ∀ x : Str, (∀ c ∈ x, isSafeChar c = true) →
      squashRuns (x ++ rest) false = x ++ squashRuns rest false := by
  intro x
  induction x with
  | nil => intro _; rfl
  | cons a x' ih =>
      intro h
      have hd := h a (List.mem_cons_self a x')
      simp only [List.cons_append, squashRuns, hd, if_pos, List.append_eq]
      rw [ih (fun c hc => h c (List.mem_cons_of_mem _ hc))]

theorem squash_run_true {rest : Str} :
    ∀ u : Str, (∀ c ∈ u, isSafeChar c = false) →
      squashRuns (u ++ rest) true = squashRuns rest true := by
  intro u
  induction u with
  | nil => intro _; rfl
  | cons e u' ih =>
      intro h
      have he := h e (List.mem_cons_self e u')
      simp only [List.cons_append, squashRuns, he, Bool.false_eq_true,
        if_false, if_pos]
      exact ih (fun c hc => h c (List.mem_cons_of_mem _ hc))

/-- C8 (amended): `sanitize_filename` trims surrounding whitespace,
replaces each maximal run of characters outside `[A-Za-z0-9._-]` by a
single underscore (not one underscore per character — the pattern is
`[^A-Za-z0-9._-]+`), falls back to `"file"` when the result is empty,
and truncates to 255 characters: for any text `x ++ u ++ y` with `x`,
`y` nonempty and entirely safe and `u` a nonempty run of disallowed
characters, the result is `take 255 (x ++ "_" ++ y)`. -/
theorem c8_amended_run_single_underscore (x u y : Str)
    (hx : x ≠ []) (hy : y ≠ []) (hu : u ≠ [])
    (hxs : ∀ c ∈ x, isSafeChar c = true)
    (hys : ∀ c ∈ y, isSafeChar c = true)
    (hus : ∀ c ∈ u, isSafeChar c = false) :
    sanitizeFilename (x ++ u ++ y) = (x ++ '_' :: y).take 255 := by
  obtain ⟨a, x', rfl⟩ : ∃ a x', x = a :: x' := by
    cases x with
    | nil => exact absurd rfl hx
    | cons a x' => exact ⟨a, x', rfl⟩
  rcases List.eq_nil_or_concat y with rfl | ⟨q, b, rfl⟩
  · exact absurd rfl hy
  simp only [List.concat_eq_append] at hys ⊢
  obtain ⟨e, u', rfl⟩ : ∃ e u', u = e :: u' := by
    cases u with
    | nil => exact absurd rfl hu
    | cons e u' => exact ⟨e, u', rfl⟩
  have hws_a : isStripWs a = false :=
    not_ws_of_safe (hxs a (List.mem_cons_self a x'))
  have hws_b : isStripWs b = false :=
    not_ws_of_safe (hys b (by simp))
  have hshape : (a :: x') ++ (e :: u') ++ (q ++ [b]) =
      a :: (x' ++ (e :: u') ++ q) ++ [b] := by simp
  have hstrip : pyStrip ((a :: x') ++ (e :: u') ++ (q ++ [b])) =
      (a :: x') ++ (e :: u') ++ (q ++ [b]) := by
    rw [hshape]
    rw [pyStrip_of_ends (x' ++ (e :: u') ++ q) hws_a hws_b]
  have he := hus e (List.mem_cons_self e u')
  have hrun : squashRuns ((e :: u') ++ (q ++ [b])) false =
      '_' :: (q ++ [b]) := by
    simp only [List.cons_append, squashRuns, he, Bool.false_eq_true,
      if_false, List.append_eq]
    rw [squash_run_true u'
      (fun c hc => hus c (List.mem_cons_of_mem _ hc))]
    rw [squash_safe (q ++ [b]) hys true]
  have hsq : squashRuns ((a :: x') ++ (e :: u') ++ (q ++ [b])) false =
      (a :: x') ++ '_' :: (q ++ [b]) := by
    rw [List.append_assoc]
    rw [squash_prefix_safe (a :: x') hxs]
    rw [hrun]
  unfold sanitizeFilename
  rw [hstrip, hsq]
  simp

/-- Witness for the C8 amended theorem on `"a!!b"`. -/
theorem c8_amended_run_single_underscore_app :
    sanitizeFilename ("a".toList ++ "!!".toList ++ "b".toList) =
      ("a".toList ++ '_' :: "b".toList).take 255 := by
  apply c8_amended_run_single_underscore <;> decide

/-! ### C7: mutual induction over the element tree -/

theorem xml_mutual_ind (P : Xml → Prop) (Q : XmlList → Prop)
    (hnil : Q .nil)
    (hcons : ∀ c cs, P c → Q cs → Q (.cons c cs))
    (helem : ∀ t a tx ks tl, Q ks → P (.elem t a tx ks tl)) :
    (∀ x, P x) ∧ (∀ ks, Q ks) := by
  have key : ∀ n : Nat,
      (∀ x, xsizeN x ≤ n → P x) ∧ (∀ ks, xsizeL ks ≤ n → Q ks) := by
    intro n
    induction n with
    | zero =>
        constructor
        · intro x hx
          cases x with
          | elem t a tx ks tl => simp [xsizeN] at hx
        · intro ks hks
          cases ks with
          | nil => exact hnil
          | cons c cs => simp [xsizeL] at hks
    | succ n ih =>
        constructor
        · intro x hx
          cases x with
          | elem t a tx ks tl =>
              apply helem
              apply ih.2
              simp only [xsizeN] at hx
              omega
        · intro ks hks
          cases ks with
          | nil => exact hnil
          | cons c cs =>
              simp only [xsizeL] at hks
              exact hcons c cs (ih.1 c (by omega)) (ih.2 cs (by omega))
  exact ⟨fun x => (key (xsizeN x)).1 x le_rfl,
    fun ks => (key (xsizeL ks)).2 ks le_rfl⟩

theorem hasTagKids_app {p : Str → Bool} {ys : XmlList} :
    ∀ xs : XmlList,
      hasTagKids p (XmlList.app xs ys) =
        (hasTagKids p xs || hasTagKids p ys) :=
  (xml_mutual_ind (fun _ => True)
    (fun xs => hasTagKids p (XmlList.app xs ys) =
      (hasTagKids p xs || hasTagKids p ys))
    (by simp [XmlList.app, hasTagKids])
    (fun c cs _ ih => by
      simp [XmlList.app, hasTagKids, ih, Bool.or_assoc])
    (fun _ _ _ _ _ _ => trivial)).2

theorem stripRevKids_app {ys : XmlList} :
    ∀ xs : XmlList,
      stripRevKids (XmlList.app xs ys) =
        XmlList.app (stripRevKids xs) (stripRevKids ys) :=
  (xml_mutual_ind (fun _ => True)
    (fun xs => stripRevKids (XmlList.app xs ys) =
      XmlList.app (stripRevKids xs) (stripRevKids ys))
    (by simp [XmlList.app, stripRevKids])
    (fun c cs _ ih => by
      by_cases hdel : isDelTag c.tag = true
      · simp [XmlList.app, stripRevKids, hdel, ih]
      · simp only [Bool.not_eq_true] at hdel
        simp [XmlList.app, stripRevKids, hdel, ih])
    (fun _ _ _ _ _ _ => trivial)).2

theorem xmlListApp_assoc {b c : XmlList} :
    ∀ a : XmlList,
      XmlList.app (XmlList.app a b) c = XmlList.app a (XmlList.app b c) :=
  (xml_mutual_ind (fun _ => True)
    (fun a => XmlList.app (XmlList.app a b) c =
      XmlList.app a (XmlList.app b c))
    (by simp [XmlList.app])
    (fun x xs _ ih => by simp [XmlList.app, ih])
    (fun _ _ _ _ _ _ => trivial)).2

theorem unwrapKids_app {ys : XmlList} :
    ∀ xs : XmlList,
      unwrapKids (XmlList.app xs ys) =
        XmlList.app (unwrapKids xs) (unwrapKids ys) :=
  (xml_mutual_ind (fun _ => True)
    (fun xs => unwrapKids (XmlList.app xs ys) =
      XmlList.app (unwrapKids xs) (unwrapKids ys))
    (by simp [XmlList.app, unwrapKids])
    (fun c cs _ ih => by
      by_cases hins : isInsTag c.tag = true
      · simp [XmlList.app, unwrapKids, hins, ih, xmlListApp_assoc]
      · simp only [Bool.not_eq_true] at hins
        simp [XmlList.app, unwrapKids, hins, ih])
    (fun _ _ _ _ _ _ => trivial)).2

theorem unwrapNode_kids : ∀ x : Xml, (unwrapNode x).kids = unwrapKids x.kids :=
  (xml_mutual_ind (fun x => (unwrapNode x).kids = unwrapKids x.kids)
    (fun _ => True) trivial (fun _ _ _ _ => trivial)
    (fun t a tx ks tl _ => by simp [unwrapNode, Xml.kids])).1

theorem stripRev_delFree :
    (∀ x : Xml, isDelTag x.tag = false →
        hasTagNode isDelTag (stripRevNode x) = false) ∧
      ∀ ks : XmlList, hasTagKids isDelTag (stripRevKids ks) = false :=
  xml_mutual_ind _ _
    (by simp [stripRevKids, hasTagKids])
    (fun c cs hc hcs => by
      by_cases hdel : isDelTag c.tag = true
      · simp [stripRevKids, hdel, hcs]
      · simp only [Bool.not_eq_true] at hdel
        simp [stripRevKids, hdel, hasTagKids, hc hdel, hcs])
    (fun t a tx ks tl hks => by
      intro ht
      simp only [Xml.tag] at ht
      simp [stripRevNode, hasTagNode, ht, hks])

theorem unwrap_insFree :
    (∀ x : Xml, hasTagKids isInsTag (unwrapNode x).kids = false ∧
        (isInsTag x.tag = false →
          hasTagNode isInsTag (unwrapNode x) = false)) ∧
      ∀ ks : XmlList, hasTagKids isInsTag (unwrapKids ks) = false :=
  xml_mutual_ind _ _
    (by simp [unwrapKids, hasTagKids])
    (fun c cs hc hcs => by
      by_cases hins : isInsTag c.tag = true
      · simp [unwrapKids, hins, hasTagKids_app, hc.1, hcs]
      · simp only [Bool.not_eq_true] at hins
        simp [unwrapKids, hins, hasTagKids, hc.2 hins, hcs])
    (fun t a tx ks tl hks => by
      constructor
      · simp [unwrapNode, Xml.kids, hks]
      · intro ht
        simp only [Xml.tag] at ht
        simp [unwrapNode, hasTagNode, ht, hks])

theorem unwrap_delFree_preserved :
    (∀ x : Xml,
        (hasTagKids isDelTag x.kids = false →
          hasTagKids isDelTag (unwrapNode x).kids = false) ∧
        (hasTagNode isDelTag x = false →
          hasTagNode isDelTag (unwrapNode x) = false)) ∧
      ∀ ks : XmlList, hasTagKids isDelTag ks = false →
        hasTagKids isDelTag (unwrapKids ks) = false :=
  xml_mutual_ind _ _
    (by simp [unwrapKids])
    (fun c cs hc hcs => by
      intro h
      simp only [hasTagKids, Bool.or_eq_false_iff] at h
      obtain ⟨hcn, hck⟩ := h
      by_cases hins : isInsTag c.tag = true
      · have hkids : hasTagKids isDelTag c.kids = false := by
          cases c with
          | elem t a tx ks tl =>
              simp only [hasTagNode, Bool.or_eq_false_iff] at hcn
              simpa [Xml.kids] using hcn.2
        simp [unwrapKids, hins, hasTagKids_app, hc.1 hkids, hcs hck]
      · simp only [Bool.not_eq_true] at hins
        simp [unwrapKids, hins, hasTagKids, hc.2 hcn, hcs hck])
    (fun t a tx ks tl hks => by
      constructor
      · intro h
        simp only [Xml.kids] at h
        simp [unwrapNode, Xml.kids, hks h]
      · intro h
        simp only [hasTagNode, Bool.or_eq_false_iff] at h
        simp [unwrapNode, hasTagNode, h.1, hks h.2])

theorem lookup_removeCommentsPart_none :
    ∀ l : List (Str × Bytes),
      List.lookup "word/comments.xml".toList (removeCommentsPart l)
        = none := by
  intro l
  unfold removeCommentsPart
  induction l with
  | nil => rfl
  | cons p rest ih =>
      obtain ⟨k, v⟩ := p
      rw [List.filter_cons]
      by_cases hb : (k == "word/comments.xml".toList) = true
      · rw [if_neg (by simpa using hb)]
        exact ih
      · have hbf : (k == "word/comments.xml".toList) = false := by
          simpa using hb
        have hne : ("word/comments.xml".toList == k) = false := by
          rw [beq_eq_false_iff_ne] at hbf ⊢
          exact fun h => hbf h.symm
        rw [if_pos (by simpa using hb)]
        simp only [List.lookup, hne]
        exact ih

/-- C7: the structural cleaner (i) removes a `w:del`/`w:moveFrom` child
together with its entire subtree, wherever it sits in a child list;
(ii) replaces a `w:ins`/`w:moveTo` wrapper by its (recursively
processed) children, spliced in place in order; (iii) after
`_accept_revisions` no descendant carries any of the four revision tags;
and (iv) the part `word/comments.xml` is always absent from the output
of `clean_docx_parts`. -/
theorem c7_revisions_and_comments_part :
    (∀ (t : Str) (a : List (Str × Str)) (tx tl : Option Str)
        (pre post : XmlList) (dn : Xml), isDelTag dn.tag = true →
        stripRevNode (.elem t a tx (XmlList.app pre (.cons dn post)) tl) =
          .elem t a tx
            (XmlList.app (stripRevKids pre) (stripRevKids post)) tl) ∧
    (∀ (t : Str) (a : List (Str × Str)) (tx tl : Option Str)
        (pre post : XmlList) (w : Xml), isInsTag w.tag = true →
        unwrapNode (.elem t a tx (XmlList.app pre (.cons w post)) tl) =
          .elem t a tx
            (XmlList.app (unwrapKids pre)
              (XmlList.app (unwrapKids w.kids) (unwrapKids post))) tl) ∧
    (∀ x : Xml, hasTagKids isDelTag (acceptRevisions x).kids = false ∧
        hasTagKids isInsTag (acceptRevisions x).kids = false) ∧
    (∀ (parse : Bytes → Option Xml) (render : Xml → Bytes)
        (parts : List (Str × Bytes)),
        List.lookup "word/comments.xml".toList
          (cleanDocxParts parse render parts) = none) := by
  refine ⟨?_, ?_, ?_, ?_⟩
  · intro t a tx tl pre post dn hdel
    simp [stripRevNode, stripRevKids_app, stripRevKids, hdel]
  · intro t a tx tl pre post w hins
    simp [unwrapNode, unwrapKids_app, unwrapKids, hins, unwrapNode_kids]
  · intro x
    have hdelkids : hasTagKids isDelTag (stripRevNode x).kids = false := by
      cases x with
      | elem t a tx ks tl =>
          simpa [stripRevNode, Xml.kids] using stripRev_delFree.2 ks
    constructor
    · exact (unwrap_delFree_preserved.1 (stripRevNode x)).1 hdelkids
    · exact (unwrap_insFree.1 (stripRevNode x)).1
  · intro parse render parts
    exact lookup_removeCommentsPart_none _

/-- Witness for C7: a concrete deletion child is removed with its
subtree, and a concrete insertion wrapper is spliced. -/
theorem c7_revisions_and_comments_part_app :
    stripRevNode (.elem "w:p".toList [] none
        (XmlList.cons
          (.elem "w:del".toList [] none
            (XmlList.cons (.elem "w:r".toList [] none .nil none) .nil)
            none) .nil) none) =
      .elem "w:p".toList [] none .nil none ∧
    unwrapNode (.elem "w:p".toList [] none
        (XmlList.cons
          (.elem "w:ins".toList [] none
            (XmlList.cons (.elem "w:r".toList [] none .nil none) .nil)
            none) .nil) none) =
      .elem "w:p".toList [] none
        (XmlList.cons (.elem "w:r".toList [] none .nil none) .nil) none := by
  constructor
  · have h := c7_revisions_and_comments_part.1 "w:p".toList [] none none
      .nil .nil
      (.elem "w:del".toList [] none
        (XmlList.cons (.elem "w:r".toList [] none .nil none) .nil) none)
      (by rfl)
    simpa [XmlList.app, stripRevKids] using h
  · have h := c7_revisions_and_comments_part.2.1 "w:p".toList [] none none
      .nil .nil
      (.elem "w:ins".toList [] none
        (XmlList.cons (.elem "w:r".toList [] none .nil none) .nil) none)
      (by rfl)
    simpa [XmlList.app, unwrapKids, Xml.kids, unwrapNode,
      stripRevKids] using h

/-! ### C6: malformed parts -/

theorem partStep_malformed {parse : Bytes → Option Xml}
    {render : Xml → Bytes} {pb : Playbook} {dr : Bool} {n : Str}
    {d : Bytes} (hparse : parse d = none) :
    ∀ acc : RuleMatchReport,
      partStep parse render pb dr n d acc = (d, acc) := by
  intro acc
  unfold partStep
  by_cases hc : ("word/".toList.isPrefixOf n &&
      ".xml".toList.isSuffixOf n) = true
  · simp [hc, hparse]
  · rw [Bool.not_eq_true] at hc
    rw [hc]
    simp

theorem applyPartsGo_keeps {parse : Bytes → Option Xml}
    {render : Xml → Bytes} {pb : Playbook} {dr : Bool} {n : Str}
    {d : Bytes} (hparse : parse d = none) :
    ∀ (parts : List (Str × Bytes)) (acc : RuleMatchReport),
      (n, d) ∈ parts →
      (n, d) ∈ (applyPartsGo parse render pb dr parts acc).1 := by
  intro parts
  induction parts with
  | nil => intro acc h; exact absurd h (List.not_mem_nil _)
  | cons q rest ih =>
      intro acc h
      obtain ⟨n0, d0⟩ := q
      rcases List.mem_cons.mp h with heq | hmem
      · obtain ⟨h1, h2⟩ := Prod.mk.injEq .. ▸ heq
        subst h1; subst h2
        simp only [applyPartsGo, partStep_malformed hparse]
        exact List.mem_cons_self _ _
      · simp only [applyPartsGo]
        exact List.mem_cons_of_mem _ (ih _ hmem)

/-- C6 (amended): any part whose bytes fail to parse as XML — except
the comments part `word/comments.xml`, which the structural cleaner
always drops — is carried byte-identical to the output of the
structural cleaner; every malformed part (including the comments part)
is carried byte-identical by the per-part rule application and leaves
the aggregate report untouched, with no error raised. -/
theorem c6_amended_malformed_parts (parse : Bytes → Option Xml)
    (render : Xml → Bytes) (pb : Playbook) (dr : Bool)
    (parts : List (Str × Bytes)) (n : Str) (d : Bytes)
    (hmem : (n, d) ∈ parts) (hparse : parse d = none) :
    (n ≠ "word/comments.xml".toList →
        (n, d) ∈ cleanDocxParts parse render parts) ∧
      (n, d) ∈ (applyRulesToParts parse render pb dr parts).1 ∧
      ∀ acc : RuleMatchReport,
        partStep parse render pb dr n d acc = (d, acc) := by
  refine ⟨?_, ?_, partStep_malformed hparse⟩
  · intro hname
    unfold cleanDocxParts removeCommentsPart
    refine List.mem_filter.mpr ⟨?_, by simpa using hname⟩
    refine List.mem_map.mpr ⟨(n, d), hmem, ?_⟩
    by_cases hs : (".xml".toList.isSuffixOf n) = true
    · simp [hs, hparse]
    · rw [Bool.not_eq_true] at hs
      rw [hs]
      simp
  · exact applyPartsGo_keeps hparse parts {} hmem

/-- Witness for the C6 amended theorem: a malformed
`word/document.xml` part is kept byte-identical with no report
contribution. -/
theorem c6_amended_malformed_parts_app :
    (("word/document.xml".toList : Str) ≠ "word/comments.xml".toList →
        ("word/document.xml".toList, ([1, 2] : Bytes)) ∈
          cleanDocxParts parseNoneFn renderNilFn
            [("word/document.xml".toList, [1, 2])]) ∧
      ("word/document.xml".toList, ([1, 2] : Bytes)) ∈
        (applyRulesToParts parseNoneFn renderNilFn pbQuiet false
          [("word/document.xml".toList, [1, 2])]).1 ∧
      ∀ acc : RuleMatchReport,
        partStep parseNoneFn renderNilFn pbQuiet false
          "word/document.xml".toList [1, 2] acc = ([1, 2], acc) :=
  c6_amended_malformed_parts parseNoneFn renderNilFn pbQuiet false
    [("word/document.xml".toList, [1, 2])] "word/document.xml".toList
    [1, 2] (by decide) rfl

/-! ### C2: placeholder tokens survive later literal rules -/

theorem matched_chars_notPh {ci : Bool} :
    ∀ (k t : Str), (∀ c ∈ k, charNotPh c) → ciPrefixOf ci k t = true →
      ∀ c ∈ t.take k.length, charNotPh c := by
  intro k
  induction k with
  | nil => intro t _ _ c hc; simp at hc
  | cons a ks ih =>
      intro t hk h c hc
      cases t with
      | nil => simp [ciPrefixOf] at h
      | cons b ts =>
          simp only [ciPrefixOf, Bool.and_eq_true] at h
          simp only [List.length_cons, List.take_succ_cons,
            List.mem_cons] at hc
          rcases hc with rfl | hc
          · have ha := hk a (List.mem_cons_self a ks)
            cases ci with
            | true =>
                have hab : a.toLower = c.toLower := by
                  have h1 := h.1
                  simpa [charEqB] using h1
                rw [charNotPh, ← hab]
                exact ha
            | false =>
                have hab : a = c := by
                  have h1 := h.1
                  simpa [charEqB] using h1
                exact hab ▸ ha
          · exact ih ts (fun c' hc' => hk c' (List.mem_cons_of_mem _ hc'))
              h.2 c hc

theorem litM_good {ci : Bool} {k : Str} (hne : k ≠ [])
    (hk : ∀ c ∈ k, charNotPh c) :
    ∀ (t : Str) (l : Nat), litM ci k t = some l →
      0 < l ∧ ∀ c ∈ t.take l, charNotPh c := by
  intro t l h
  unfold litM at h
  by_cases hp : ciPrefixOf ci k t = true
  · rw [if_pos hp] at h
    injection h with h'
    subst h'
    exact ⟨List.length_pos.mpr hne, matched_chars_notPh k t hk hp⟩
  · rw [if_neg hp] at h
    cases h

theorem kwM_good {ci : Bool} :
    ∀ kws : List Str, (∀ k ∈ kws, k ≠ [] ∧ ∀ c ∈ k, charNotPh c) →
      ∀ (t : Str) (l : Nat), kwM ci kws t = some l →
        0 < l ∧ ∀ c ∈ t.take l, charNotPh c := by
  intro kws
  induction kws with
  | nil => intro _ t l h; cases h
  | cons k ks ih =>
      intro hk t l h
      unfold kwM at h
      by_cases hp : ciPrefixOf ci k t = true
      · rw [if_pos hp] at h
        injection h with h'
        subst h'
        obtain ⟨hne, hchars⟩ := hk k (List.mem_cons_self k ks)
        exact ⟨List.length_pos.mpr hne, matched_chars_notPh k t hchars hp⟩
      · rw [if_neg hp] at h
        exact ih (fun k' h' => hk k' (List.mem_cons_of_mem _ h')) t l h

theorem ciPrefixOf_length {ci : Bool} :
    ∀ (k t : Str), ciPrefixOf ci k t = true → k.length ≤ t.length := by
  intro k
  induction k with
  | nil => intro t _; simp
  | cons a ks ih =>
      intro t h
      cases t with
      | nil => simp [ciPrefixOf] at h
      | cons b ts =>
          simp only [ciPrefixOf, Bool.and_eq_true] at h
          simp only [List.length_cons]
          exact Nat.succ_le_succ (ih ts h.2)

theorem subGo_drop {m : Str → Option Nat} {rep : Str → Str} :
    ∀ (s : Str) (skip : Nat), skip ≤ s.length →
      subGo m rep s skip = subGo m rep (s.drop skip) 0 := by
  intro s
  induction s with
  | nil =>
      intro skip h
      cases skip with
      | zero => rfl
      | succ k => exact absurd h (Nat.not_succ_le_zero k)
  | cons c rest ih =>
      intro skip h
      cases skip with
      | zero => rfl
      | succ k =>
          simp only [subGo, List.drop_succ_cons]
          exact ih k (by simp only [List.length_cons] at h; omega)

theorem hasCopies_zero {sep s : Str} : hasCopies sep 0 s := True.intro

theorem hasCopies_succ_iff {sep : Str} {n : Nat} {s : Str} :
    hasCopies sep (n + 1) s ↔
      ∃ u v, s = u ++ sep ++ v ∧ hasCopies sep n v := Iff.rfl

theorem hasCopies_succ_intro {sep : Str} (u v : Str) {s : Str} {n : Nat}
    (heq : s = u ++ sep ++ v) (hv : hasCopies sep n v) :
    hasCopies sep (n + 1) s := ⟨u, v, heq, hv⟩

theorem hasCopies_nil_succ {sep : Str} {n : Nat} (hne : sep ≠ [])
    (h : hasCopies sep (n + 1) []) : False := by
  rw [hasCopies_succ_iff] at h
  obtain ⟨u, v, heq, _⟩ := h
  have hlen := congrArg List.length heq
  simp only [List.length_nil, List.length_append] at hlen
  exact hne (List.length_eq_zero.mp (by omega))

theorem hasCopies_append_left {sep : Str} {n : Nat} (x : Str) :
    ∀ {s : Str}, hasCopies sep n s → hasCopies sep n (x ++ s) := by
  cases n with
  | zero => intro s _; exact hasCopies_zero
  | succ q =>
      intro s h
      rw [hasCopies_succ_iff] at h
      obtain ⟨u, v, heq, hv⟩ := h
      exact hasCopies_succ_intro (x ++ u) v (by rw [heq]; simp) hv

theorem hasCopies_cons {sep : Str} {n : Nat} (c : Char) {s : Str}
    (h : hasCopies sep n s) : hasCopies sep n (c :: s) :=
  hasCopies_append_left [c] h

theorem subGo_head_copy {m : Str → Option Nat} {rep : Str → Str}
    (hm : ∀ t l, m t = some l → 0 < l ∧ ∀ c ∈ t.take l, charNotPh c) :
    ∀ tok : Str, (∀ c ∈ tok, ¬ charNotPh c) →
      ∀ v : Str, subGo m rep (tok ++ v) 0 = tok ++ subGo m rep v 0 := by
  intro tok
  induction tok with
  | nil => intro _ v; rfl
  | cons a tk ih =>
      intro hph v
      have hnone : m (a :: (tk ++ v)) = none := by
        cases hm0 : m (a :: (tk ++ v)) with
        | none => rfl
        | some l =>
            obtain ⟨hl, hchars⟩ := hm _ _ hm0
            exfalso
            apply hph a (List.mem_cons_self _ _)
            apply hchars
            cases l with
            | zero => exact absurd hl (lt_irrefl 0)
            | succ l' => simp [List.take_succ_cons]
      simp only [List.cons_append, subGo, List.append_eq, hnone]
      rw [ih (fun c' hc' => hph c' (List.mem_cons_of_mem _ hc')) v]

theorem subGo_copies_survive {m : Str → Option Nat} {rep : Str → Str}
    {tok : Str}
    (hm : ∀ t l, m t = some l → 0 < l ∧ ∀ c ∈ t.take l, charNotPh c)
    (hne : tok ≠ []) (hph : ∀ c ∈ tok, ¬ charNotPh c) :
    ∀ (N : Nat) (s : Str), s.length ≤ N → ∀ (skip n : Nat),
      hasCopies tok n (s.drop skip) →
      hasCopies tok n (subGo m rep s skip) := by
  obtain ⟨t0, tt, rfl⟩ : ∃ t0 tt, tok = t0 :: tt := by
    cases tok with
    | nil => exact absurd rfl hne
    | cons t0 tt => exact ⟨t0, tt, rfl⟩
  intro N
  induction N with
  | zero =>
      intro s hs skip n h
      obtain rfl : s = [] := by
        cases s with
        | nil => rfl
        | cons c rest =>
            simp only [List.length_cons] at hs
            omega
      rw [List.drop_nil] at h
      cases n with
      | zero => exact hasCopies_zero
      | succ q => exact (hasCopies_nil_succ hne h).elim
  | succ N ih =>
      intro s hs skip n h
      cases s with
      | nil =>
          rw [List.drop_nil] at h
          cases n with
          | zero => exact hasCopies_zero
          | succ q => exact (hasCopies_nil_succ hne h).elim
      | cons c rest =>
          cases skip with
          | succ k =>
              rw [List.drop_succ_cons] at h
              simp only [subGo]
              exact ih rest (by simp only [List.length_cons] at hs; omega)
                k n h
          | zero =>
              rw [List.drop_zero] at h
              cases n with
              | zero => exact hasCopies_zero
              | succ q =>
                  rw [hasCopies_succ_iff] at h
                  obtain ⟨u, v, heq, hv⟩ := h
                  cases hm0 : m (c :: rest) with
                  | some l =>
                      obtain ⟨hl, hchars⟩ := hm _ _ hm0
                      cases l with
                      | zero => exact absurd hl (lt_irrefl 0)
                      | succ l' =>
                          have hla : l' + 1 ≤ u.length := by
                            by_contra hcon
                            push_neg at hcon
                            apply hph t0 (List.mem_cons_self _ _)
                            apply hchars
                            rw [heq, List.append_assoc, List.cons_append,
                              List.take_append_eq_append_take]
                            apply List.mem_append_right
                            cases hq : l' + 1 - u.length with
                            | zero => omega
                            | succ q2 => simp [List.take_succ_cons]
                          have hdrop : hasCopies (t0 :: tt) (q + 1)
                              (rest.drop l') := by
                            have h1 : (c :: rest).drop (l' + 1) =
                                rest.drop l' := rfl
                            rw [← h1, heq, List.append_assoc,
                              List.drop_append_of_le_length hla]
                            rw [hasCopies_succ_iff]
                            exact ⟨u.drop (l' + 1), v, by simp, hv⟩
                          simp only [subGo, hm0]
                          exact hasCopies_append_left _
                            (ih rest
                              (by simp only [List.length_cons] at hs; omega)
                              l' (q + 1) hdrop)
                  | none =>
                      cases u with
                      | nil =>
                          rw [List.nil_append] at heq
                          rw [heq, subGo_head_copy hm (t0 :: tt) hph v]
                          have hvlen : v.length ≤ N := by
                            have hlen := congrArg List.length heq
                            simp only [List.length_cons,
                              List.length_append] at hlen
                            simp only [List.length_cons] at hs
                            omega
                          refine hasCopies_succ_intro [] _ ?_
                            (ih v hvlen 0 q (by rwa [List.drop_zero]))
                          simp
                      | cons c' u' =>
                          rw [List.cons_append, List.cons_append] at heq
                          injection heq with h1 h2
                          simp only [subGo, hm0]
                          apply hasCopies_cons
                          apply ih rest
                            (by simp only [List.length_cons] at hs; omega)
                            0 (q + 1)
                          rw [List.drop_zero, h2, hasCopies_succ_iff]
                          exact ⟨u', v, rfl, hv⟩

theorem subGo_const_copies {m : Str → Option Nat} {tok : Str} :
    ∀ (s : Str) (skip pos : Nat),
      hasCopies tok ((scanGo m s pos skip).length)
        (subGo m (fun _ => tok) s skip) := by
  intro s
  induction s with
  | nil =>
      intro skip pos
      cases skip with
      | zero =>
          cases hm0 : m [] with
          | none =>
              simp only [scanGo, subGo, hm0, List.length_nil]
              exact hasCopies_zero
          | some l =>
              simp only [scanGo, subGo, hm0, List.length_cons,
                List.length_nil]
              refine hasCopies_succ_intro [] [] ?_ hasCopies_zero
              simp
      | succ k =>
          simp only [scanGo, subGo, List.length_nil]
          exact hasCopies_zero
  | cons c rest ih =>
      intro skip pos
      cases skip with
      | succ k =>
          simp only [scanGo, subGo]
          exact ih k (pos + 1)
      | zero =>
          cases hm0 : m (c :: rest) with
          | none =>
              simp only [scanGo, subGo, hm0]
              exact hasCopies_cons c (ih 0 (pos + 1))
          | some l =>
              cases l with
              | zero =>
                  simp only [scanGo, subGo, hm0, List.length_cons]
                  refine hasCopies_succ_intro [] _ ?_
                    (hasCopies_cons c (ih 0 (pos + 1)))
                  simp
              | succ l' =>
                  simp only [scanGo, subGo, hm0, List.length_cons]
                  refine hasCopies_succ_intro [] _ ?_ (ih l' (pos + 1))
                  simp

theorem restore_copies {tok p : Str} (hne : tok ≠ []) :
    ∀ (N : Nat) (s : Str), s.length ≤ N → ∀ n : Nat,
      hasCopies tok n s →
      hasCopies p n (subGo (litM false tok) (fun _ => p) s 0) := by
  intro N
  induction N with
  | zero =>
      intro s hs n h
      obtain rfl : s = [] := by
        cases s with
        | nil => rfl
        | cons c rest =>
            simp only [List.length_cons] at hs
            omega
      cases n with
      | zero => exact hasCopies_zero
      | succ q => exact (hasCopies_nil_succ hne h).elim
  | succ N ih =>
      intro s hs n h
      cases s with
      | nil =>
          cases n with
          | zero => exact hasCopies_zero
          | succ q => exact (hasCopies_nil_succ hne h).elim
      | cons c rest =>
          cases n with
          | zero => exact hasCopies_zero
          | succ q =>
              rw [hasCopies_succ_iff] at h
              obtain ⟨u, v, heq, hv⟩ := h
              cases hlit : litM false tok (c :: rest) with
              | none =>
                  cases u with
                  | nil =>
                      exfalso
                      rw [List.nil_append] at heq
                      have hpre : ciPrefixOf false tok (c :: rest) =
                          true := by
                        rw [ciPrefixOf_false_iff]
                        exact ⟨v, heq.symm⟩
                      have hful : litM false tok (c :: rest) =
                          some tok.length := by
                        unfold litM
                        rw [if_pos hpre]
                      rw [hful] at hlit
                      exact Option.noConfusion hlit
                  | cons c' u' =>
                      rw [List.cons_append, List.cons_append] at heq
                      injection heq with h1 h2
                      simp only [subGo, hlit]
                      apply hasCopies_cons
                      apply ih rest
                        (by simp only [List.length_cons] at hs; omega)
                        (q + 1)
                      rw [hasCopies_succ_iff]
                      exact ⟨u', v, h2, hv⟩
              | some L =>
                  have hlit0 := hlit
                  unfold litM at hlit
                  by_cases hpre : ciPrefixOf false tok (c :: rest) = true
                  · rw [if_pos hpre] at hlit
                    injection hlit with hL
                    obtain ⟨L', rfl⟩ : ∃ L', L = L' + 1 := by
                      cases L with
                      | zero =>
                          exact absurd (List.length_eq_zero.mp hL) hne
                      | succ L' => exact ⟨L', rfl⟩
                    have hlen : L' + 1 ≤ rest.length + 1 := by
                      have hc2 := ciPrefixOf_length tok (c :: rest) hpre
                      simp only [List.length_cons] at hc2
                      omega
                    simp only [subGo, hlit0]
                    rw [subGo_drop rest L' (by omega)]
                    have hdrop : hasCopies tok q (rest.drop L') := by
                      have h1 : (c :: rest).drop (L' + 1) =
                          rest.drop L' := rfl
                      rw [← h1, heq]
                      rw [List.drop_append_of_le_length
                        (by simp only [List.length_append]; omega)]
                      exact hasCopies_append_left _ hv
                    refine hasCopies_succ_intro [] _ ?_
                      (ih (rest.drop L')
                        (by
                          simp only [List.length_drop]
                          simp only [List.length_cons] at hs
                          omega)
                        q hdrop)
                    simp
                  · rw [if_neg hpre] at hlit
                    exact Option.noConfusion hlit

theorem applyDictGo_copies {rule : Rule} {pb : Playbook}
    {d : Bool} {tok : Str} {n : Nat} (hne : tok ≠ [])
    (hph : ∀ c ∈ tok, ¬ charNotPh c) :
    ∀ entries : List (Str × Str),
      (∀ kv ∈ entries, kv.1 ≠ [] ∧ ∀ c ∈ kv.1, charNotPh c) →
      ∀ (s : Str) (rep : RuleMatchReport), hasCopies tok n s →
        hasCopies tok n (applyDictGo rule pb d entries s rep).1 := by
  intro entries
  induction entries with
  | nil => intro _ s rep h; exact h
  | cons kv es ih =>
      intro hent s rep h
      obtain ⟨k, v⟩ := kv
      obtain ⟨hkne, hkch⟩ := hent (k, v) (List.mem_cons_self _ _)
      have hgood := @litM_good rule.case_insensitive k hkne hkch
      have hrest := fun s' h' rep' =>
        ih (fun kv' hkv' => hent kv' (List.mem_cons_of_mem _ hkv'))
          s' rep' h'
      simp only [applyDictGo]
      by_cases hms : findAll (litM rule.case_insensitive k) s = []
      · simp only [hms, if_pos]
        exact hrest s h rep
      · rw [if_neg hms]
        cases d with
        | true =>
            rw [if_pos rfl]
            exact hrest s h _
        | false =>
            rw [if_neg Bool.false_ne_true]
            apply hrest
            split
            · exact subGo_copies_survive hgood hne hph s.length s
                le_rfl 0 n (by rwa [List.drop_zero])
            · split
              · exact subGo_copies_survive hgood hne hph s.length s
                  le_rfl 0 n (by rwa [List.drop_zero])
              · exact subGo_copies_survive hgood hne hph s.length s
                  le_rfl 0 n (by rwa [List.drop_zero])

theorem applyKeywords_copies {rule : Rule} {pb : Playbook}
    {d : Bool} {tok : Str} {n : Nat} {s : Str} {rep : RuleMatchReport}
    (hne : tok ≠ []) (hph : ∀ c ∈ tok, ¬ charNotPh c)
    (hkws : ∀ k ∈ rule.keywords, k ≠ [] ∧ ∀ c ∈ k, charNotPh c)
    (h : hasCopies tok n s) :
    hasCopies tok n (applyKeywords s rule pb rep d).1 := by
  unfold applyKeywords
  by_cases hk : rule.keywords = []
  · simp only [hk, if_pos]
    exact h
  · rw [if_neg hk]
    by_cases hms : findAll (kwM rule.case_insensitive rule.keywords) s = []
    · simp only [hms, if_pos]
      exact h
    · rw [if_neg hms]
      cases d with
      | true =>
          rw [if_pos rfl]
          exact h
      | false =>
          rw [if_neg Bool.false_ne_true]
          exact subGo_copies_survive (kwM_good rule.keywords hkws) hne hph
            s.length s le_rfl 0 n (by rwa [List.drop_zero])

theorem foldDictGroup_copies {pb : Playbook} {d : Bool}
    {tok : Str} {n : Nat} (hne : tok ≠ [])
    (hph : ∀ c ∈ tok, ¬ charNotPh c) :
    ∀ rules : List Rule,
      (∀ r ∈ rules, r.rule_type = "dictionary_entities".toList ∧
        ∀ kv ∈ r.dictionary, kv.1 ≠ [] ∧ ∀ c ∈ kv.1, charNotPh c) →
      ∀ st : Str × RuleMatchReport, hasCopies tok n st.1 →
        hasCopies tok n ((rules.foldl
          (fun (st : Str × RuleMatchReport) r =>
            applyRule st.1 r pb st.2 d) st).1) := by
  intro rules
  induction rules with
  | nil => intro _ st h; exact h
  | cons r rs ih =>
      intro hr st h
      obtain ⟨htype, hdict⟩ := hr r (List.mem_cons_self r rs)
      simp only [List.foldl_cons]
      apply ih (fun r' hr' => hr r' (List.mem_cons_of_mem _ hr'))
      simp only [applyRule, htype, if_pos]
      exact applyDictGo_copies hne hph r.dictionary hdict st.1 st.2 h

theorem foldKwGroup_copies {pb : Playbook} {d : Bool}
    {tok : Str} {n : Nat} (hne : tok ≠ [])
    (hph : ∀ c ∈ tok, ¬ charNotPh c) :
    ∀ rules : List Rule,
      (∀ r ∈ rules, r.rule_type = "keyword_list".toList ∧
        ∀ k ∈ r.keywords, k ≠ [] ∧ ∀ c ∈ k, charNotPh c) →
      ∀ st : Str × RuleMatchReport, hasCopies tok n st.1 →
        hasCopies tok n ((rules.foldl
          (fun (st : Str × RuleMatchReport) r =>
            applyRule st.1 r pb st.2 d) st).1) := by
  intro rules
  induction rules with
  | nil => intro _ st h; exact h
  | cons r rs ih =>
      intro hr st h
      obtain ⟨htype, hkws⟩ := hr r (List.mem_cons_self r rs)
      have hnotd : ¬ r.rule_type = "dictionary_entities".toList := by
        rw [htype]; decide
      have hnotr : ¬ r.rule_type = "regex_patterns".toList := by
        rw [htype]; decide
      simp only [List.foldl_cons]
      apply ih (fun r' hr' => hr r' (List.mem_cons_of_mem _ hr'))
      simp only [applyRule, htype, if_pos, if_neg hnotd, if_neg hnotr]
      exact applyKeywords_copies hne hph hkws h

/-- C2 (amended): allowlist protection is per-occurrence: with one
enabled allowlist rule carrying exactly one nonempty literal phrase and
no patterns, no enabled regex rules, and every enabled dictionary key
and keyword nonempty and made of characters that cannot collide
(case-insensitively) with placeholder token characters (`_`, digits,
letters of `BLUR`/`ALLOWLIST`), every occurrence of the phrase that the
protection pass replaces (the leftmost non-overlapping occurrences in
the input, as `str.replace` finds them) yields its own verbatim copy of
the phrase in the output, in order: the output decomposes as
`v₀ ++ p ++ v₁ ++ ⋯ ++ p ++ vₙ` with `n` the number of protected
occurrences.  Without such a restriction the claim is false: a rule can
match inside the placeholder token itself and destroy the protected
span (`c2_placeholder_destroyed`). -/
theorem c2_amended_each_protected_span_survives
    (text p : Str) (ar : Rule) (pb : Playbook) (d : Bool)
    (hal : rulesByType pb "allowlist".toList = [ar])
    (hps : ar.phrases = [p]) (hpa : ar.patterns = [])
    (hpne : p ≠ [])
    (hrx : rulesByType pb "regex_patterns".toList = [])
    (hdg : ∀ r ∈ rulesByType pb "dictionary_entities".toList,
      ∀ kv ∈ r.dictionary, kv.1 ≠ [] ∧ ∀ c ∈ kv.1, charNotPh c)
    (hkg : ∀ r ∈ rulesByType pb "keyword_list".toList,
      ∀ k ∈ r.keywords, k ≠ [] ∧ ∀ c ∈ k, charNotPh c) :
    hasCopies p ((findAll (litM false p) text).length)
      ((applyRules text pb d).1) := by
  have htokne : phToken 1 ≠ [] := by decide
  have htokch : ∀ c ∈ phToken 1, ¬ charNotPh c := by decide
  have hE : applyAllowlist (rulesByType pb "allowlist".toList)
      (text, 0, []) = (pythonReplace p (phToken 1) text, 1,
        [(phToken 1, p)]) := by
    rw [hal]
    simp [applyAllowlist, allowPhrases, hps, hpa, allowPatterns]
  have hprotect : hasCopies (phToken 1)
      ((findAll (litM false p) text).length)
      (pythonReplace p (phToken 1) text) := by
    unfold findAll pythonReplace
    exact subGo_const_copies text 0 0
  have hdg' : ∀ r ∈ rulesByType pb "dictionary_entities".toList,
      r.rule_type = "dictionary_entities".toList ∧
        ∀ kv ∈ r.dictionary, kv.1 ≠ [] ∧ ∀ c ∈ kv.1, charNotPh c :=
    fun r hr => ⟨(mem_rulesByType hr).2.1, hdg r hr⟩
  have hkg' : ∀ r ∈ rulesByType pb "keyword_list".toList,
      r.rule_type = "keyword_list".toList ∧
        ∀ k ∈ r.keywords, k ≠ [] ∧ ∀ c ∈ k, charNotPh c :=
    fun r hr => ⟨(mem_rulesByType hr).2.1, hkg r hr⟩
  simp only [applyRules, hE, hrx, List.foldl_nil, restorePlaceholders,
    List.foldl_cons, pythonReplace]
  apply restore_copies htokne _ _ le_rfl
  apply foldKwGroup_copies htokne htokch _ hkg'
  apply foldDictGroup_copies htokne htokch _ hdg'
  exact hprotect

/-- Witness for the C2 amended theorem: both occurrences of `Acme`
survive a later keyword rule with keyword `zz`, each yielding its own
verbatim copy of the phrase in the output. -/
theorem c2_amended_each_protected_span_survives_app :
    hasCopies "Acme".toList 2
      ((applyRules "Acme zz Acme".toList pbSurvive false).1) := by
  have h := c2_amended_each_protected_span_survives
    "Acme zz Acme".toList "Acme".toList acmeAllowRule pbSurvive false
    (by decide) (by decide) (by decide) (by decide) (by decide)
    (by decide) (by decide)
  have hn : (findAll (litM false "Acme".toList)
      "Acme zz Acme".toList).length = 2 := by decide
  rw [hn] at h
  exact h

end BLUR
